import Mathlib

/-!
Shallow embedding of the branching-text tree engine of the loom Obsidian
plugin (`src/main.ts`), together with proofs about the claims of its
specification.

Modelling conventions:
* JS strings are modelled by `String` (a list of characters); indices are
  character indices.
* The per-note node map (`NoteState.nodes`, a JS object keyed by uuid) is
  modelled by an association list `List (String × Node)`, which preserves
  the insertion order that JS `Object.entries` / `Object.values` iterate in.
* The `while (node) { node = nodes[node].parentId }` walks of the source
  terminate only on acyclic parent graphs; they are embedded as
  fuel-indexed recursions returning `Option` (`none` = fuel exhausted or a
  dangling id, where the source would loop forever or crash).  `FUEL m`
  (one more than the map size) is enough fuel on every well-formed map.
-/

namespace Loom

/-! ## Character-list string operations (JS semantics) -/

/-- Length of a JS string, in characters. -/
def jsLen (s : String) : Nat := s.data.length

/-- Model of JS `s.substring(0, n)` (clamping, like `List.take`). -/
def jsTake (s : String) (n : Nat) : String := ⟨s.data.take n⟩

/-- Model of JS `s.substring(n)` (clamping, like `List.drop`). -/
def jsDrop (s : String) (n : Nat) : String := ⟨s.data.drop n⟩

/-- Model of JS `s.startsWith(pat)`. -/
def jsStartsWith (s pat : String) : Bool := pat.data.isPrefixOf s.data

/-- Model of JS `array.join("")` for an array of strings. -/
def joinStr : List String → String
  | [] => ""
  | s :: rest => s ++ joinStr rest

/-- Substring of `s` between character positions `a` and `b` (JS
`s.substring(a, b)` for `a ≤ b`; clamped at both ends). -/
def sliceBetween (s : String) (a b : Nat) : String := jsTake (jsDrop s a) (b - a)

/-- Model of JS `s.toLowerCase()` (character-wise lowering). -/
def toLowerStr (s : String) : String := ⟨s.data.map Char.toLower⟩

/-- Model of JS `s.includes(pat)`: some suffix of `s` starts with `pat`. -/
def includesStr (s pat : String) : Bool :=
  (List.range (jsLen s + 1)).any (fun i => jsStartsWith (jsDrop s i) pat)

/-- Whitespace test used by the `/\s+$/` regex of the source (ASCII part). -/
def isWsChar (c : Char) : Bool := c = ' ' ∨ c = '\n' ∨ c = '\t' ∨ c = '\r'

/-- Whether the JS regex `/\s+$/` matches `s`, i.e. `s` ends in whitespace. -/
def hasTrailingWs (s : String) : Bool :=
  match s.data.getLast? with
  | some c => isWsChar c
  | none => false

/-- Model of JS `s.replace(/target/g, rep)` for a one-character target. -/
def jsReplaceAllChar (s : String) (target : Char) (rep : List Char) : String :=
  ⟨s.data.flatMap (fun c => if c = target then rep else [c])⟩

theorem joinStr_append (a b : List String) :
    joinStr (a ++ b) = joinStr a ++ joinStr b := by
  induction a with
  | nil => simp [joinStr]
  | cons s rest ih => simp [joinStr, ih, String.append_assoc]

theorem jsLen_append (s t : String) : jsLen (s ++ t) = jsLen s + jsLen t := by
  simp [jsLen]

theorem jsTake_append_jsDrop (s : String) (n : Nat) :
    jsTake s n ++ jsDrop s n = s := by
  cases s with
  | mk data =>
    show String.mk _ = _
    simp [jsTake, jsDrop, String.append]

theorem str_append_empty (s : String) : s ++ "" = s := by simp

/-! ## Data model (`src/common.ts`)

`SearchResultState = "result" | "ancestor" | "none" | null` is modelled as
`Option SearchResultState` with `SearchResultState.noMatch` standing for the
string `"none"` and `Option.none` standing for `null`. -/

inductive SearchResultState where
  | result
  | ancestor
  | noMatch
  deriving DecidableEq, Repr

/-- Mirror of `interface Node` in `src/common.ts`. -/
structure Node where
  text : String
  parentId : Option String
  collapsed : Bool
  unread : Bool
  bookmarked : Bool
  lastVisited : Option Nat := none
  searchResultState : Option SearchResultState := none
  deriving DecidableEq, Repr

/-- Mirror of `interface NoteState` in `src/common.ts`; `nodes` is an
association list in JS object insertion order. -/
structure NoteState where
  current : String
  hoisted : List String
  searchTerm : String
  nodes : List (String × Node)
  generating : Option String
  deriving DecidableEq, Repr

/-- Lookup in the node map (`state.nodes[id]`). -/
def lookupNode (m : List (String × Node)) (id : String) : Option Node :=
  (m.find? (fun p => p.1 = id)).map (·.2)

/-- Text of a node, `""` when absent (used only where the source has already
established that the node exists). -/
def textOf (m : List (String × Node)) (id : String) : String :=
  ((lookupNode m id).map Node.text).getD ""

/-- Ids of the children of `id`, in map order
(`Object.entries(nodes).filter(([, n]) => n.parentId === id)`). -/
def childrenOf (m : List (String × Node)) (id : String) : List String :=
  (m.filter (fun p => p.2.parentId = some id)).map (·.1)

/-- Mirror of `newNode` in `src/main.ts` (the uuid is passed in by the
caller of the embedding). -/
def mkNode (text : String) (parentId : Option String) (unread : Bool := false) : Node :=
  { text := text
    parentId := parentId
    collapsed := false
    unread := unread
    bookmarked := false
    lastVisited := none
    searchResultState := none }

/-! ## Parent-chain machinery

`chainToRoot m fuel id` is the list `id :: p₁ :: … :: root` of nodes met by
the walk `while (node) node = nodes[node].parentId` of the source, or `none`
if the walk runs out of fuel (a cycle) or meets a dangling id. -/

def chainToRoot (m : List (String × Node)) : Nat → String → Option (List String)
  | 0, _ => none
  | fuel+1, id =>
    match lookupNode m id with
    | none => none
    | some n =>
      match n.parentId with
      | none => some [id]
      | some p => (chainToRoot m fuel p).map (fun l => id :: l)

/-- Default fuel: one more than the map size reaches the root of any
acyclic parent graph. -/
def FUEL (m : List (String × Node)) : Nat := m.length + 1

/-- Mirror of `ancestors` in `src/main.ts` (lines 181–190): repeatedly take
`parentId`, pushing each ancestor, then reverse — embedded by prepending,
which yields the same root-first list. -/
def ancestorsLoop (m : List (String × Node)) : Nat → String → List String → Option (List String)
  | 0, _, _ => none
  | fuel+1, id, acc =>
    match lookupNode m id with
    | none => none
    | some n =>
      match n.parentId with
      | none => some acc
      | some p => ancestorsLoop m fuel p (p :: acc)

/-- Root-first ancestors of `id`, excluding `id` (source `ancestors`). -/
def ancestors (m : List (String × Node)) (id : String) : Option (List String) :=
  ancestorsLoop m (FUEL m) id []

/-- Mirror of `fullText` in `src/main.ts` (lines 196–206):
`text = nodes[current].text + text; current = parentId` until null. -/
def fullTextLoop (m : List (String × Node)) : Nat → Option String → String → Option String
  | _, none, acc => some acc
  | 0, some _, _ => none
  | fuel+1, some id, acc =>
    match lookupNode m id with
    | none => none
    | some n => fullTextLoop m fuel n.parentId (n.text ++ acc)

/-- Source `fullText(file, id)` (with `id : string | null`). -/
def fullText (m : List (String × Node)) (oid : Option String) : Option String :=
  fullTextLoop m (FUEL m) oid ""

/-- Total version of `fullText` (defaulting to `""` where the source would
diverge or crash); every theorem that uses it assumes the walk succeeds. -/
def fullTextD (m : List (String × Node)) (oid : Option String) : String :=
  (fullText m oid).getD ""

/-- Total version of `ancestors` (same convention as `fullTextD`). -/
def ancestorsD (m : List (String × Node)) (id : String) : List String :=
  (ancestors m id).getD []

/-! ### Chain lemmas -/

theorem chain_head {m : List (String × Node)} {f : Nat} {id : String} {l : List String}
    (h : chainToRoot m f id = some l) : ∃ rest, l = id :: rest := by
  cases f with
  | zero => simp [chainToRoot] at h
  | succ f =>
    simp only [chainToRoot] at h
    cases hlook : lookupNode m id with
    | none => simp [hlook] at h
    | some n =>
      cases hp : n.parentId with
      | none => simp [hlook, hp] at h; exact ⟨[], h.symm⟩
      | some p =>
        simp [hlook, hp] at h
        obtain ⟨lp, _, hl⟩ := h
        exact ⟨lp, hl.symm⟩

theorem chain_lookup {m : List (String × Node)} {f : Nat} {id : String} {l : List String}
    (h : chainToRoot m f id = some l) : ∃ n, lookupNode m id = some n := by
  cases f with
  | zero => simp [chainToRoot] at h
  | succ f =>
    simp only [chainToRoot] at h
    cases hlook : lookupNode m id with
    | none => simp [hlook] at h
    | some n => exact ⟨n, rfl⟩

theorem chain_mono {m : List (String × Node)} {f f' : Nat} {id : String} {l : List String}
    (h : chainToRoot m f id = some l) (hle : f ≤ f') :
    chainToRoot m f' id = some l := by
  induction f generalizing id l f' with
  | zero => simp [chainToRoot] at h
  | succ f ih =>
    obtain ⟨f', rfl⟩ : ∃ g, f' = g + 1 := ⟨f' - 1, by omega⟩
    have hff : f ≤ f' := by omega
    simp only [chainToRoot] at h ⊢
    cases hlook : lookupNode m id with
    | none => simp [hlook] at h
    | some n =>
      simp only [hlook] at h ⊢
      cases hp : n.parentId with
      | none => simpa [hp] using h
      | some p =>
        simp only [hp, Option.map_eq_some'] at h ⊢
        obtain ⟨lp, hlp, rfl⟩ := h
        exact ⟨lp, ih hlp hff, rfl⟩

theorem chain_unique {m : List (String × Node)} {f f' : Nat} {id : String}
    {l l' : List String} (h : chainToRoot m f id = some l)
    (h' : chainToRoot m f' id = some l') : l = l' := by
  have h1 := chain_mono h (Nat.le_max_left f f')
  have h2 := chain_mono h' (Nat.le_max_right f f')
  rw [h1] at h2
  exact (Option.some.inj h2)

theorem chain_suffix {m : List (String × Node)} {f : Nat} {id : String} {l : List String}
    (h : chainToRoot m f id = some l) {x : String} (hx : x ∈ l) :
    ∃ pre l', l = pre ++ l' ∧ chainToRoot m f x = some l' := by
  induction f generalizing id l with
  | zero => simp [chainToRoot] at h
  | succ f ih =>
    simp only [chainToRoot] at h
    cases hlook : lookupNode m id with
    | none => simp [hlook] at h
    | some n =>
      simp only [hlook] at h
      cases hp : n.parentId with
      | none =>
        simp only [hp] at h
        obtain rfl := (Option.some.inj h).symm
        simp only [List.mem_singleton] at hx
        subst hx
        exact ⟨[], [x], rfl, by simp [chainToRoot, hlook, hp]⟩
      | some p =>
        simp only [hp, Option.map_eq_some'] at h
        obtain ⟨lp, hlp, rfl⟩ := h
        rcases List.mem_cons.mp hx with rfl | hxl
        · exact ⟨[], x :: lp, rfl, by simp [chainToRoot, hlook, hp, hlp]⟩
        · obtain ⟨pre, l', hsplit, hch⟩ := ih hlp hxl
          exact ⟨id :: pre, l', by simp [hsplit], chain_mono hch (Nat.le_succ f)⟩

theorem chain_mem_lookup {m : List (String × Node)} {f : Nat} {id : String} {l : List String}
    (h : chainToRoot m f id = some l) {x : String} (hx : x ∈ l) :
    ∃ n, lookupNode m x = some n := by
  obtain ⟨_, l', _, hch⟩ := chain_suffix h hx
  exact chain_lookup hch

/-- No node of a successful chain is its own parent. -/
theorem chain_self_parent {m : List (String × Node)} {f : Nat} {id : String}
    {l : List String} (h : chainToRoot m f id = some l) {n : Node}
    (hn : lookupNode m id = some n) : n.parentId ≠ some id := by
  intro hpar
  cases f with
  | zero => simp [chainToRoot] at h
  | succ f =>
    have h₀ := h
    simp only [chainToRoot, hn, hpar, Option.map_eq_some'] at h
    obtain ⟨lp, hlp, heq⟩ := h
    have huniq : lp = l := chain_unique (chain_mono hlp (Nat.le_succ f)) h₀
    rw [huniq] at heq
    have := congrArg List.length heq
    simp at this

/-- Like `chain_suffix`, but for an occurrence in the tail of the chain: the
returned suffix is a suffix of the tail. -/
theorem chain_suffix_tail {m : List (String × Node)} {f : Nat} {id : String}
    {rest : List String} (h : chainToRoot m f id = some (id :: rest))
    {x : String} (hx : x ∈ rest) :
    ∃ f' pre l', rest = pre ++ l' ∧ chainToRoot m f' x = some l' := by
  cases f with
  | zero => simp [chainToRoot] at h
  | succ f =>
    simp only [chainToRoot] at h
    cases hlook : lookupNode m id with
    | none => simp [hlook] at h
    | some n =>
      simp only [hlook] at h
      cases hp : n.parentId with
      | none =>
        simp only [hp] at h
        have : rest = [] := by simpa using (Option.some.inj h).symm
        subst this
        simp at hx
      | some p =>
        simp only [hp, Option.map_eq_some'] at h
        obtain ⟨lp, hlp, heq⟩ := h
        have : rest = lp := by simpa using heq.symm
        subst this
        obtain ⟨pre, l', hs, hc⟩ := chain_suffix hlp hx
        exact ⟨f, pre, l', hs, hc⟩

/-- A chain never revisits its head. -/
theorem chain_head_not_mem_tail {m : List (String × Node)} {f : Nat} {id : String}
    {rest : List String} (h : chainToRoot m f id = some (id :: rest)) : id ∉ rest := by
  intro hmem
  obtain ⟨f', pre, l', hsplit, hch⟩ := chain_suffix_tail h hmem
  obtain ⟨rest', rfl⟩ := chain_head hch
  have huniq : id :: rest' = id :: rest := chain_unique hch h
  have : rest' = rest := by simpa using huniq
  subst this
  have hlen := congrArg List.length hsplit
  simp [List.length_append] at hlen
  omega

/-- No element of a chain's tail is a child of the chain's head. -/
theorem chain_tail_parent_ne_head {m : List (String × Node)} {f : Nat} {id : String}
    {rest : List String} (h : chainToRoot m f id = some (id :: rest))
    {x : String} (hx : x ∈ rest) {nx : Node} (hnx : lookupNode m x = some nx) :
    nx.parentId ≠ some id := by
  intro hpar
  obtain ⟨f', pre, l', hsplit, hch⟩ := chain_suffix_tail h hx
  obtain ⟨rest', rfl⟩ := chain_head hch
  -- unfold one step of the chain from x: its tail is a chain of `id`
  cases f' with
  | zero => simp [chainToRoot] at hch
  | succ f' =>
    simp only [chainToRoot, hnx, hpar, Option.map_eq_some'] at hch
    obtain ⟨lid, hlid, heq⟩ := hch
    have heq2 : lid = rest' := by simpa using heq
    have huniq : lid = id :: rest := chain_unique hlid h
    rw [heq2] at huniq
    rw [huniq] at hsplit
    have hlen := congrArg List.length hsplit
    simp [List.length_append] at hlen
    omega

/-- The `fullText` loop computes the concatenation of the texts along the
parent chain, root first. -/
theorem fullTextLoop_eq_of_chain {m : List (String × Node)} {f : Nat} {id : String}
    {l : List String} (h : chainToRoot m f id = some l) (acc : String) :
    fullTextLoop m f (some id) acc = some (joinStr (l.reverse.map (textOf m)) ++ acc) := by
  induction f generalizing id l acc with
  | zero => simp [chainToRoot] at h
  | succ f ih =>
    simp only [chainToRoot] at h
    cases hlook : lookupNode m id with
    | none => simp [hlook] at h
    | some n =>
      simp only [hlook] at h
      have htext : textOf m id = n.text := by simp [textOf, hlook]
      cases hp : n.parentId with
      | none =>
        simp only [hp] at h
        obtain rfl := (Option.some.inj h).symm
        simp [fullTextLoop, hlook, hp, joinStr, htext, String.append_assoc]
      | some p =>
        simp only [hp, Option.map_eq_some'] at h
        obtain ⟨lp, hlp, rfl⟩ := h
        have hstep := ih hlp (n.text ++ acc)
        simp only [fullTextLoop, hlook, hp, hstep]
        simp [joinStr_append, joinStr, htext, String.append_assoc]

theorem fullTextLoop_mono {m : List (String × Node)} {f f' : Nat} {oid : Option String}
    {acc s : String} (h : fullTextLoop m f oid acc = some s) (hle : f ≤ f') :
    fullTextLoop m f' oid acc = some s := by
  induction f generalizing oid acc f' with
  | zero =>
    cases oid with
    | none => simpa [fullTextLoop] using h
    | some id => simp [fullTextLoop] at h
  | succ f ih =>
    cases oid with
    | none => simpa [fullTextLoop] using h
    | some id =>
      obtain ⟨f', rfl⟩ : ∃ g, f' = g + 1 := ⟨f' - 1, by omega⟩
      simp only [fullTextLoop] at h ⊢
      cases hlook : lookupNode m id with
      | none => simp [hlook] at h
      | some n =>
        simp only [hlook] at h ⊢
        exact ih h (by omega)

/-- The `ancestors` loop returns the reversed tail of the parent chain
(the root-first proper ancestors). -/
theorem ancestorsLoop_eq_of_chain {m : List (String × Node)} {f : Nat} {id : String}
    {rest : List String} (h : chainToRoot m f id = some (id :: rest)) (acc : List String) :
    ancestorsLoop m f id acc = some (rest.reverse ++ acc) := by
  induction f generalizing id rest acc with
  | zero => simp [chainToRoot] at h
  | succ f ih =>
    simp only [chainToRoot] at h
    cases hlook : lookupNode m id with
    | none => simp [hlook] at h
    | some n =>
      simp only [hlook] at h
      cases hp : n.parentId with
      | none =>
        simp only [hp] at h
        have : rest = [] := by simpa using (Option.some.inj h).symm
        subst this
        simp [ancestorsLoop, hlook, hp]
      | some p =>
        simp only [hp, Option.map_eq_some'] at h
        obtain ⟨lp, hlp, heq⟩ := h
        have : lp = rest := by simpa using heq
        subst this
        obtain ⟨restp, rfl⟩ := chain_head hlp
        have hstep := ih hlp (p :: acc)
        simp only [ancestorsLoop, hlook, hp, hstep]
        simp

/-- If two maps agree (in text and parent) on every node of a chain of `m₁`,
the chain also exists in `m₂` and the `fullText` loops agree. -/
theorem chain_agree {m₁ m₂ : List (String × Node)} {f : Nat} {id : String}
    {l : List String} (h : chainToRoot m₁ f id = some l)
    (hag : ∀ x ∈ l, ∀ n₁, lookupNode m₁ x = some n₁ →
      ∃ n₂, lookupNode m₂ x = some n₂ ∧ n₂.text = n₁.text ∧ n₂.parentId = n₁.parentId) :
    chainToRoot m₂ f id = some l ∧
      ∀ acc, fullTextLoop m₂ f (some id) acc = fullTextLoop m₁ f (some id) acc := by
  induction f generalizing id l with
  | zero => simp [chainToRoot] at h
  | succ f ih =>
    simp only [chainToRoot] at h
    cases hlook : lookupNode m₁ id with
    | none => simp [hlook] at h
    | some n =>
      simp only [hlook] at h
      have hidmem : id ∈ l := by
        cases hp : n.parentId with
        | none => simp only [hp] at h; obtain rfl := (Option.some.inj h).symm; simp
        | some p =>
          simp only [hp, Option.map_eq_some'] at h
          obtain ⟨lp, _, rfl⟩ := h
          simp
      obtain ⟨n₂, hlook₂, htext₂, hpar₂⟩ := hag id hidmem n hlook
      cases hp : n.parentId with
      | none =>
        simp only [hp] at h
        obtain rfl := (Option.some.inj h).symm
        constructor
        · simp [chainToRoot, hlook₂, hpar₂, hp]
        · intro acc
          simp [fullTextLoop, hlook, hlook₂, hpar₂, hp, htext₂]
      | some p =>
        simp only [hp, Option.map_eq_some'] at h
        obtain ⟨lp, hlp, rfl⟩ := h
        have hag' : ∀ x ∈ lp, ∀ n₁, lookupNode m₁ x = some n₁ →
            ∃ n₂, lookupNode m₂ x = some n₂ ∧ n₂.text = n₁.text ∧ n₂.parentId = n₁.parentId :=
          fun x hx => hag x (List.mem_cons_of_mem id hx)
        obtain ⟨hchain₂, hfull₂⟩ := ih hlp hag'
        constructor
        · simp [chainToRoot, hlook₂, hpar₂, hp, hchain₂]
        · intro acc
          simp only [fullTextLoop, hlook, hlook₂, hpar₂, hp, htext₂]
          exact hfull₂ (n.text ++ acc)

/-! ## Map-update helpers and their lookup lemmas

JS mutations of nodes inside `state.nodes` are embedded as key-preserving
value maps over the association list. -/

/-- Key-preserving update of every value in the map. -/
def mapVals (m : List (String × Node)) (g : String → Node → Node) : List (String × Node) :=
  m.map (fun p => (p.1, g p.1 p.2))

theorem length_mapVals (m : List (String × Node)) (g : String → Node → Node) :
    (mapVals m g).length = m.length := by simp [mapVals]

theorem lookupNode_cons (p : String × Node) (rest : List (String × Node)) (x : String) :
    lookupNode (p :: rest) x = if p.1 = x then some p.2 else lookupNode rest x := by
  by_cases h : p.1 = x
  · simp only [lookupNode]
    rw [List.find?_cons_of_pos _ (by simp [h])]
    simp [h]
  · simp only [lookupNode]
    rw [List.find?_cons_of_neg _ (by simp [h])]
    simp [h]

theorem lookupNode_mapVals (m : List (String × Node)) (g : String → Node → Node)
    (x : String) : lookupNode (mapVals m g) x = (lookupNode m x).map (g x) := by
  induction m with
  | nil => simp [lookupNode, mapVals]
  | cons p rest ih =>
    simp only [mapVals, List.map_cons, lookupNode_cons] at *
    by_cases h : p.1 = x
    · subst h; simp
    · simp [h, ih]

theorem lookupNode_append (m₁ m₂ : List (String × Node)) (x : String) :
    lookupNode (m₁ ++ m₂) x = (lookupNode m₁ x).or (lookupNode m₂ x) := by
  simp only [lookupNode, List.find?_append]
  cases m₁.find? (fun p => p.1 = x) <;> simp

theorem lookupNode_eq_none {m : List (String × Node)} {x : String}
    (h : ∀ p ∈ m, p.1 ≠ x) : lookupNode m x = none := by
  simp only [lookupNode, Option.map_eq_none']
  exact List.find?_eq_none.mpr (fun p hp => by simpa using h p hp)

theorem lookupNode_filter_key (m : List (String × Node)) (q : String → Bool) (x : String) :
    lookupNode (m.filter (fun p => q p.1)) x = if q x then lookupNode m x else none := by
  induction m with
  | nil => simp [lookupNode]
  | cons p rest ih =>
    rw [List.filter_cons]
    by_cases hq : q p.1
    · rw [if_pos (by simpa using hq), lookupNode_cons]
      by_cases h : p.1 = x
      · subst h; simp [hq, lookupNode_cons]
      · simp only [h, if_false, ih]
        by_cases hqx : q x
        · simp [hqx, lookupNode_cons, h]
        · simp [hqx]
    · rw [if_neg (by simpa using hq), ih, lookupNode_cons]
      by_cases h : p.1 = x
      · subst h; simp [hq]
      · simp [h]

/-! ## Navigation: `loom:switch-to` (src/main.ts lines 676–713)

The handler sets `current`, clears `unread`, stamps `lastVisited`,
uncollapses every ancestor and replaces the whole editor buffer with
`fullText(id)`.  The cursor restoration logic does not change the buffer
text and is not modelled. -/

def switchTo (s : NoteState) (id : String) (now : Nat) : NoteState × String :=
  let nodes₁ := mapVals s.nodes
    (fun k v => if k = id then { v with unread := false, lastVisited := some now } else v)
  let anc := ancestorsD nodes₁ id
  let nodes₂ := mapVals nodes₁
    (fun k v => if k ∈ anc then { v with collapsed := false } else v)
  ({ s with current := id, nodes := nodes₂ }, fullTextD nodes₂ (some id))

theorem switchTo_current (s : NoteState) (id : String) (now : Nat) :
    (switchTo s id now).1.current = id := rfl

/-- Text and parent of every node are untouched by `switchTo`. -/
theorem switchTo_preserves_text_parent (s : NoteState) (id : String)
    (now : Nat) (x : String) :
    ((lookupNode (switchTo s id now).1.nodes x).map (fun n => (n.text, n.parentId))) =
      ((lookupNode s.nodes x).map (fun n => (n.text, n.parentId))) := by
  unfold switchTo
  simp only [lookupNode_mapVals, Option.map_map]
  cases lookupNode s.nodes x with
  | none => rfl
  | some n =>
    simp only [Option.map_some', Function.comp]
    split_ifs <;> rfl

/-- A key-preserving value update that does not touch text or parent leaves
the parent chain and the full text of any chain node unchanged. -/
theorem mapVals_chain_fullTextD (m : List (String × Node)) (g : String → Node → Node)
    (hg : ∀ k v, (g k v).text = v.text ∧ (g k v).parentId = v.parentId)
    {id : String} {l : List String} (hc : chainToRoot m (FUEL m) id = some l) :
    chainToRoot (mapVals m g) (FUEL (mapVals m g)) id = some l ∧
      fullTextD (mapVals m g) (some id) = fullTextD m (some id) := by
  have hag : ∀ x ∈ l, ∀ n₁, lookupNode m x = some n₁ →
      ∃ n₂, lookupNode (mapVals m g) x = some n₂ ∧ n₂.text = n₁.text ∧
        n₂.parentId = n₁.parentId := by
    intro x _ n₁ hlk
    exact ⟨g x n₁, by rw [lookupNode_mapVals, hlk]; rfl, (hg x n₁).1, (hg x n₁).2⟩
  obtain ⟨hc₂, hf₂⟩ := chain_agree hc hag
  have hFUEL : FUEL (mapVals m g) = FUEL m := by simp [FUEL, length_mapVals]
  refine ⟨by rw [hFUEL]; exact hc₂, ?_⟩
  simp only [fullTextD, fullText, hFUEL, hf₂ ""]

/-- Claim C1: for every node id `n` present in a document's node map (with a
well-founded parent chain), `fullText(n)` equals the concatenation of the
texts of `n`'s ancestors (root first) followed by `n`'s own text, and
immediately after `switchTo(n)` the host buffer's contents equal
`fullText(n)` exactly. -/
theorem claim_C1 (s : NoteState) (id : String) (n : Node) (rest : List String) (now : Nat)
    (hn : lookupNode s.nodes id = some n)
    (hchain : chainToRoot s.nodes (FUEL s.nodes) id = some (id :: rest)) :
    fullText s.nodes (some id) =
      some (joinStr ((ancestorsD s.nodes id).map (textOf s.nodes)) ++ n.text) ∧
    (switchTo s id now).2 = fullTextD s.nodes (some id) := by
  have hanc : ancestorsD s.nodes id = rest.reverse := by
    simp [ancestorsD, ancestors, ancestorsLoop_eq_of_chain hchain]
  have hfull := fullTextLoop_eq_of_chain hchain ""
  have htext : textOf s.nodes id = n.text := by simp [textOf, hn]
  constructor
  · rw [fullText, hfull, hanc]
    simp [List.reverse_cons, joinStr_append, joinStr, htext, String.append_assoc]
  · obtain ⟨hc₁, hf₁⟩ := mapVals_chain_fullTextD s.nodes
      (fun k v => if k = id then { v with unread := false, lastVisited := some now } else v)
      (by intro k v; constructor <;> (dsimp only; split <;> rfl)) hchain
    obtain ⟨-, hf₂⟩ := mapVals_chain_fullTextD _
      (fun k v => if k ∈ ancestorsD (mapVals s.nodes
          (fun k v => if k = id then { v with unread := false, lastVisited := some now } else v)) id
        then { v with collapsed := false } else v)
      (by intro k v; constructor <;> (dsimp only; split <;> rfl)) hc₁
    show fullTextD _ (some id) = fullTextD s.nodes (some id)
    rw [hf₂, hf₁]

def exNodesC1 : List (String × Node) :=
  [("r", mkNode "Hello " none), ("c", mkNode "world" (some "r"))]

def exStateC1 : NoteState :=
  { current := "r", hoisted := [], searchTerm := "", nodes := exNodesC1, generating := none }

/-- Witness for C1 on a concrete two-node tree. -/
theorem claim_C1_witness :
    fullText exNodesC1 (some "c") =
      some (joinStr ((ancestorsD exNodesC1 "c").map (textOf exNodesC1)) ++ "world") ∧
    (switchTo exStateC1 "c" 7).2 = fullTextD exNodesC1 (some "c") :=
  claim_C1 exStateC1 "c" (mkNode "world" (some "r")) ["r"] 7 (by decide) (by decide)

/-! ## Buffer reconciler: the `editor-change` handler (src/main.ts lines 588–674) -/

theorem jsLen_jsDrop (s : String) (n : Nat) : jsLen (jsDrop s n) = jsLen s - n := by
  simp [jsLen, jsDrop]

/-- Mirror of `editNode` (lines 636–644): the new text of family node `i` is
the buffer minus the joined texts before `i` and minus the joined texts
after `i`. -/
def editNodeText (familyTexts : List String) (text : String) (i : Nat) : String :=
  let pre := joinStr (familyTexts.take i)
  let suf := joinStr (familyTexts.drop (i + 1))
  let newText := jsDrop text (jsLen pre)
  jsTake newText (jsLen newText - jsLen suf)

/-- The scan of lines 655–662: the first ancestor index `i` such that the
buffer does not start with the cumulative text `t₀ … tᵢ`. -/
def firstMismatch (ancestorTexts : List String) (text : String) : Option Nat :=
  (List.range ancestorTexts.length).find?
    (fun i => ! jsStartsWith text (joinStr (ancestorTexts.take (i + 1))))

/-- Effect of the `editor-change` handler on the family texts: given the
texts of the current node's ancestors (root first), the current node's text
and the new buffer contents `text`, return the new ancestor texts and the
new current text. -/
def editorChange (ancestorTexts : List String) (curText : String) (text : String) :
    List String × String :=
  let familyTexts := ancestorTexts ++ [curText]
  match firstMismatch ancestorTexts text with
  | some i => (ancestorTexts.set i (editNodeText familyTexts text i), curText)
  | none => (ancestorTexts, jsDrop text (jsLen (joinStr ancestorTexts)))

/-- `find?` over `range n` returns the least index satisfying the test. -/
theorem find?_range_first {p : Nat → Bool} {n i : Nat} (hi : i < n) (hp : p i = true)
    (hmin : ∀ j, j < i → p j = false) : (List.range n).find? p = some i := by
  obtain ⟨d, rfl⟩ : ∃ d, n = i + (d + 1) := ⟨n - i - 1, by omega⟩
  rw [List.range_add, List.find?_append]
  have h1 : (List.range i).find? p = none :=
    List.find?_eq_none.mpr (fun x hx => by simp [hmin x (List.mem_range.mp hx)])
  rw [h1, List.range_succ_eq_map]
  simp only [List.map_cons, Option.none_or]
  rw [List.find?_cons_of_pos _ (by simpa using hp)]
  simp

/-- Claim C2: the reconciler scans ancestors root-to-leaf; at the first
index `i` whose cumulative prefix the buffer `B` does not start with, it
rewrites exactly that ancestor's text to the slice of `B` from the length
of the previous cumulative prefix up to the length of `B` minus the length
of the unchanged suffix `t(i+1) + … + tk`; if every cumulative ancestor
prefix matches, only the current node's text changes, to `B` with the whole
ancestor prefix removed. -/
theorem claim_C2 (ancestorTexts : List String) (curText text : String) :
    (∀ i, i < ancestorTexts.length →
      jsStartsWith text (joinStr (ancestorTexts.take (i + 1))) = false →
      (∀ j, j < i → jsStartsWith text (joinStr (ancestorTexts.take (j + 1))) = true) →
      editorChange ancestorTexts curText text =
        (ancestorTexts.set i
          (sliceBetween text (jsLen (joinStr (ancestorTexts.take i)))
            (jsLen text - (jsLen (joinStr (ancestorTexts.drop (i + 1))) + jsLen curText))),
         curText)) ∧
    ((∀ i, i < ancestorTexts.length →
        jsStartsWith text (joinStr (ancestorTexts.take (i + 1))) = true) →
      editorChange ancestorTexts curText text =
        (ancestorTexts, jsDrop text (jsLen (joinStr ancestorTexts)))) := by
  constructor
  · intro i hi hmiss hmin
    have hfm : firstMismatch ancestorTexts text = some i :=
      find?_range_first hi (by simp [hmiss]) (fun j hj => by simp [hmin j hj])
    simp only [editorChange, hfm]
    refine congrArg (fun v => (ancestorTexts.set i v, curText)) ?_
    have hpre : (ancestorTexts ++ [curText]).take i = ancestorTexts.take i :=
      List.take_append_of_le_length hi.le
    have hsuf : (ancestorTexts ++ [curText]).drop (i + 1) =
        ancestorTexts.drop (i + 1) ++ [curText] :=
      List.drop_append_of_le_length hi
    have hsuflen : jsLen (joinStr ((ancestorTexts ++ [curText]).drop (i + 1))) =
        jsLen (joinStr (ancestorTexts.drop (i + 1))) + jsLen curText := by
      rw [hsuf, joinStr_append]
      simp [jsLen_append, joinStr, jsLen]
    simp only [editNodeText, sliceBetween, hpre, hsuflen, jsLen_jsDrop]
    refine congrArg (fun k => jsTake (jsDrop text (jsLen (joinStr (ancestorTexts.take i)))) k) ?_
    omega
  · intro hall
    have hfm : firstMismatch ancestorTexts text = none := by
      refine List.find?_eq_none.mpr (fun j hj => ?_)
      simp [hall j (List.mem_range.mp hj)]
    simp only [editorChange, hfm]

/-- Witness for C2: an edit inside the second ancestor, and an edit local to
the current node. -/
theorem claim_C2_witness :
    editorChange ["AA", "BB"] "CC" "AAXXCC" = (["AA", "XX"], "CC") ∧
    editorChange ["AA", "BB"] "CC" "AABBZZ" = (["AA", "BB"], "ZZ") := by
  constructor
  · have h := (claim_C2 ["AA", "BB"] "CC" "AAXXCC").1 1 (by decide) (by decide)
      (fun j hj => by
        have hj0 : j = 0 := by omega
        subst hj0
        decide)
    rw [h]
    decide
  · have h := (claim_C2 ["AA", "BB"] "CC" "AABBZZ").2
      (fun j hj => by
        match j, hj with
        | 0, _ => decide
        | 1, _ => decide)
    rw [h]
    decide

/-! ## `breakAtPoint` (src/main.ts lines 208–261) -/

/-- The owner-search loop of lines 227–236: walk the family texts with the
cursor offset; `some (n, i)` gives the index of the owning node and the
local offset inside it, `none` is the cursor-at-the-very-end case of lines
231–233 (where the source returns `[current, null]` without splitting). -/
def findOwner : List String → Nat → Option (Nat × Nat)
  | [], _ => none
  | [t], i => if i < jsLen t then some (0, i) else none
  | t :: t' :: rest, i =>
    if i < jsLen t then some (0, i)
    else (findOwner (t' :: rest) (i - jsLen t)).map (fun p => (p.1 + 1, p.2))

theorem findOwner_lt {ts : List String} {pos n i : Nat}
    (h : findOwner ts pos = some (n, i)) :
    n < ts.length ∧ i < jsLen (ts.getD n "") := by
  induction ts generalizing pos n i with
  | nil => simp [findOwner] at h
  | cons t rest ih =>
    cases rest with
    | nil =>
      simp only [findOwner] at h
      split at h
      · obtain ⟨rfl, rfl⟩ : 0 = n ∧ pos = i := by
          constructor <;> [exact (Prod.mk.injEq _ _ _ _ ▸ Option.some.inj h).1;
            exact (Prod.mk.injEq _ _ _ _ ▸ Option.some.inj h).2]
        simp_all
      · simp at h
    | cons t' rest' =>
      simp only [findOwner] at h
      split at h
      · obtain ⟨rfl, rfl⟩ : 0 = n ∧ pos = i := by
          constructor <;> [exact (Prod.mk.injEq _ _ _ _ ▸ Option.some.inj h).1;
            exact (Prod.mk.injEq _ _ _ _ ▸ Option.some.inj h).2]
        simp_all
      · simp only [Option.map_eq_some'] at h
        obtain ⟨⟨n', i'⟩, hfo, heq⟩ := h
        obtain ⟨rfl, rfl⟩ : n' + 1 = n ∧ i' = i := by
          constructor <;> [exact (Prod.mk.injEq _ _ _ _ ▸ heq).1;
            exact (Prod.mk.injEq _ _ _ _ ▸ heq).2]
        obtain ⟨h1, h2⟩ := ih hfo
        constructor
        · simpa using Nat.succ_lt_succ h1
        · simpa using h2

/-- With unique keys, membership of a key in a value-filtered map is lookup
plus the filtering condition. -/
theorem mem_filterKeys {m : List (String × Node)} (hnd : (m.map (·.1)).Nodup)
    (q : Node → Bool) (x : String) :
    x ∈ (m.filter (fun p => q p.2)).map (·.1) ↔
      ∃ v, lookupNode m x = some v ∧ q v = true := by
  induction m with
  | nil => simp [lookupNode]
  | cons p rest ih =>
    have hnd' : (rest.map (·.1)).Nodup := (List.nodup_cons.mp (by simpa using hnd)).2
    have hxn : p.1 ∉ rest.map (·.1) := (List.nodup_cons.mp (by simpa using hnd)).1
    rw [List.filter_cons]
    by_cases hq : q p.2
    · rw [if_pos (by simpa using hq)]
      by_cases hx : p.1 = x
      · subst hx
        simp [lookupNode_cons, hq]
      · simp only [List.map_cons, List.mem_cons]
        rw [lookupNode_cons, if_neg hx]
        simp only [ih hnd']
        constructor
        · rintro (rfl | hmem)
          · exact absurd rfl hx
          · exact hmem
        · intro hmem
          exact Or.inr hmem
    · rw [if_neg (by simpa using hq)]
      by_cases hx : p.1 = x
      · subst hx
        rw [lookupNode_cons, if_pos rfl]
        constructor
        · intro hmem
          exact absurd (List.map_subset _ (List.filter_sublist _).subset hmem) hxn
        · rintro ⟨v, hv, hqv⟩
          obtain rfl : p.2 = v := Option.some.inj hv
          simp [hqv] at hq
      · rw [lookupNode_cons, if_neg hx]
        exact ih hnd'

theorem keys_mapVals (m : List (String × Node)) (g : String → Node → Node) :
    (mapVals m g).map (·.1) = m.map (·.1) := by
  simp [mapVals, List.map_map, Function.comp]

/-- Node-map effect of the split branch of `breakAtPoint` (lines 238–260):
set the owning node's text to `before`, collect its children, append the
new node holding `after`, and reparent the collected children to it. -/
def breakSplitNodes (m : List (String × Node)) (owner : String) (before after : String)
    (newId : String) : List (String × Node) :=
  let nodes₁ := mapVals m (fun k v => if k = owner then { v with text := before } else v)
  let childIds := (nodes₁.filter (fun p => p.2.parentId = some owner)).map (·.1)
  let nodes₂ := nodes₁ ++ [(newId, mkNode after (some owner))]
  mapVals nodes₂ (fun k v => if k ∈ childIds then { v with parentId := some newId } else v)

/-- Mirror of `breakAtPoint` (lines 208–261), with the cursor's global
offset in the family text and the fresh uuid passed in by the caller.
Returns the pair the source returns (`[current, null]` in the end-of-text
case, `[ownerId, newId]` after a split) together with the new state. -/
def breakAtPoint (s : NoteState) (cursorPos : Nat) (newId : String) :
    (Option String × Option String) × NoteState :=
  let family := ancestorsD s.nodes s.current ++ [s.current]
  let familyTexts := family.map (textOf s.nodes)
  match findOwner familyTexts cursorPos with
  | none => ((some s.current, none), s)
  | some (n, i) =>
    let parentNode := family.getD n ""
    let parentNodeText := familyTexts.getD n ""
    let newNodes := breakSplitNodes s.nodes parentNode (jsTake parentNodeText i) (jsDrop parentNodeText i) newId
    ((some parentNode, some newId), { s with nodes := newNodes })

theorem option_some_or (a : Node) (b : Option Node) : (some a).or b = some a := rfl

theorem option_none_or (b : Option Node) : (Option.none : Option Node).or b = b := by
  cases b <;> rfl

theorem lookup_mem_keys {m : List (String × Node)} {x : String} {v : Node}
    (h : lookupNode m x = some v) : x ∈ m.map (·.1) := by
  simp only [lookupNode, Option.map_eq_some'] at h
  obtain ⟨p, hp, rfl⟩ := h
  have hmem := List.mem_of_find?_eq_some hp
  have hx := List.find?_some hp
  simp only [decide_eq_true_eq] at hx
  subst hx
  exact List.mem_map_of_mem _ hmem

/-- Specialisation of `mem_filterKeys` to the children-collection filter of
`breakAtPoint` and `mergeWithParent`. -/
theorem mem_childKeys {m : List (String × Node)} (hnd : (m.map (·.1)).Nodup)
    (owner x : String) :
    (x ∈ (m.filter (fun p => p.2.parentId = some owner)).map (·.1)) ↔
      ∃ v, lookupNode m x = some v ∧ v.parentId = some owner := by
  have h := mem_filterKeys hnd (fun v => decide (v.parentId = some owner)) x
  simpa using h

theorem breakSplitNodes_length (m : List (String × Node)) (owner before after newId : String) :
    (breakSplitNodes m owner before after newId).length = m.length + 1 := by
  simp [breakSplitNodes, length_mapVals, mapVals]

theorem breakSplitNodes_lookup_owner {m : List (String × Node)} {owner : String}
    {ownerNode : Node} (before after newId : String)
    (hnd : (m.map (·.1)).Nodup) (hown : lookupNode m owner = some ownerNode)
    (hself : ownerNode.parentId ≠ some owner) :
    lookupNode (breakSplitNodes m owner before after newId) owner =
      some { ownerNode with text := before } := by
  have h₁ : lookupNode (mapVals m (fun k v => if k = owner then { v with text := before } else v))
      owner = some { ownerNode with text := before } := by
    rw [lookupNode_mapVals, hown]
    simp
  have hnd₁ : ((mapVals m (fun k v => if k = owner then { v with text := before } else v)).map
      (·.1)).Nodup := by rw [keys_mapVals]; exact hnd
  have hnotchild : owner ∉ ((mapVals m
      (fun k v => if k = owner then { v with text := before } else v)).filter
        (fun p => p.2.parentId = some owner)).map (·.1) := by
    rw [mem_childKeys hnd₁]
    rintro ⟨v, hv, hqv⟩
    rw [h₁] at hv
    obtain rfl := Option.some.inj hv
    exact hself hqv
  simp only [breakSplitNodes, lookupNode_mapVals, lookupNode_append, h₁, option_some_or,
    Option.map_some']
  simp [hnotchild]

theorem breakSplitNodes_lookup_new {m : List (String × Node)} {owner : String}
    (before after : String) {newId : String}
    (hfresh : newId ∉ m.map (·.1)) :
    lookupNode (breakSplitNodes m owner before after newId) newId =
      some (mkNode after (some owner)) := by
  have h₁ : lookupNode (mapVals m (fun k v => if k = owner then { v with text := before } else v))
      newId = none := by
    apply lookupNode_eq_none
    intro p hp
    simp only [mapVals, List.mem_map] at hp
    obtain ⟨q, hq, rfl⟩ := hp
    intro hcontra
    have hmemq : q.1 ∈ m.map (·.1) := List.mem_map_of_mem (fun r : String × Node => r.1) hq
    have heq : (q.1 : String) = newId := hcontra
    exact hfresh (heq ▸ hmemq)
  have hnotchild : newId ∉ ((mapVals m
      (fun k v => if k = owner then { v with text := before } else v)).filter
        (fun p => p.2.parentId = some owner)).map (·.1) := by
    intro hmem
    have hsub : (((mapVals m
        (fun k v => if k = owner then { v with text := before } else v)).filter
          (fun p => p.2.parentId = some owner)).map (·.1)) ⊆ ((mapVals m
        (fun k v => if k = owner then { v with text := before } else v)).map (·.1)) :=
      List.map_subset _ (List.filter_sublist _).subset
    have hmem' := hsub hmem
    rw [keys_mapVals] at hmem'
    exact hfresh hmem'
  simp only [breakSplitNodes, lookupNode_mapVals, lookupNode_append, h₁, option_none_or]
  rw [lookupNode_cons]
  simp [hnotchild]

theorem breakSplitNodes_lookup_other {m : List (String × Node)} {owner x : String}
    {nx : Node} (before after newId : String)
    (hnd : (m.map (·.1)).Nodup)
    (hxo : x ≠ owner) (_hxn : x ≠ newId) (hx : lookupNode m x = some nx) :
    lookupNode (breakSplitNodes m owner before after newId) x =
      some (if nx.parentId = some owner then { nx with parentId := some newId } else nx) := by
  have h₁ : lookupNode (mapVals m (fun k v => if k = owner then { v with text := before } else v))
      x = some nx := by
    rw [lookupNode_mapVals, hx]
    simp [hxo]
  have hnd₁ : ((mapVals m (fun k v => if k = owner then { v with text := before } else v)).map
      (·.1)).Nodup := by rw [keys_mapVals]; exact hnd
  have hchild : (x ∈ ((mapVals m
      (fun k v => if k = owner then { v with text := before } else v)).filter
        (fun p => p.2.parentId = some owner)).map (·.1)) ↔ nx.parentId = some owner := by
    rw [mem_childKeys hnd₁]
    constructor
    · rintro ⟨v, hv, hqv⟩
      rw [h₁] at hv
      obtain rfl := Option.some.inj hv
      exact hqv
    · intro hpar
      exact ⟨nx, h₁, hpar⟩
  simp only [breakSplitNodes, lookupNode_mapVals, lookupNode_append, h₁, option_some_or,
    Option.map_some']
  by_cases hpar : nx.parentId = some owner
  · simp [hchild.mpr hpar, hpar]
  · have hnot : ¬ (x ∈ ((mapVals m
        (fun k v => if k = owner then { v with text := before } else v)).filter
          (fun p => p.2.parentId = some owner)).map (·.1)) := fun hmem => hpar (hchild.mp hmem)
    simp [hnot, hpar]

theorem fullTextLoop_step {m : List (String × Node)} {f : Nat} {id : String}
    {acc : String} {n : Node} (hlook : lookupNode m id = some n) :
    fullTextLoop m (f + 1) (some id) acc = fullTextLoop m f n.parentId (n.text ++ acc) := by
  simp [fullTextLoop, hlook]

/-- After a split, the full text of the newly created node equals the full
text the owning node had before the split. -/
theorem breakSplit_fullText {m : List (String × Node)} {owner : String} {ownerNode : Node}
    {newId before after : String}
    (hnd : (m.map (·.1)).Nodup) (hown : lookupNode m owner = some ownerNode)
    (hfresh : newId ∉ m.map (·.1)) (hba : before ++ after = ownerNode.text)
    {lo : List String} (hcho : chainToRoot m (FUEL m) owner = some (owner :: lo)) :
    fullText (breakSplitNodes m owner before after newId) (some newId) =
      fullText m (some owner) := by
  have hself := chain_self_parent hcho hown
  have hlookO := breakSplitNodes_lookup_owner (m := m) before after newId hnd hown hself
  have hlookN : lookupNode (breakSplitNodes m owner before after newId) newId =
      some (mkNode after (some owner)) := breakSplitNodes_lookup_new before after hfresh
  have hF : FUEL (breakSplitNodes m owner before after newId) = m.length + 1 + 1 := by
    simp [FUEL, breakSplitNodes_length]
  rw [fullText, fullText, hF]
  rw [fullTextLoop_step hlookN]
  simp only [mkNode]
  rw [show FUEL m = m.length + 1 from rfl]
  rw [fullTextLoop_step hlookO, fullTextLoop_step hown]
  show fullTextLoop _ m.length ownerNode.parentId (before ++ (after ++ "")) =
    fullTextLoop m m.length ownerNode.parentId (ownerNode.text ++ "")
  have hacc : before ++ (after ++ "") = ownerNode.text ++ "" := by
    rw [str_append_empty, str_append_empty, hba]
  rw [hacc]
  cases hp : ownerNode.parentId with
  | none => simp [fullTextLoop]
  | some q =>
    have hclo : chainToRoot m m.length q = some lo := by
      have h := hcho
      simp only [FUEL, chainToRoot, hown, hp, Option.map_eq_some'] at h
      obtain ⟨lp, hlp, heq⟩ := h
      have hlplo : lp = lo := by simpa using heq
      rw [← hlplo]
      exact hlp
    have hag : ∀ x ∈ lo, ∀ n₁, lookupNode m x = some n₁ →
        ∃ n₂, lookupNode (breakSplitNodes m owner before after newId) x = some n₂ ∧
          n₂.text = n₁.text ∧ n₂.parentId = n₁.parentId := by
      intro x hxlo n₁ hn₁
      have hxo : x ≠ owner := fun h => (chain_head_not_mem_tail hcho) (h ▸ hxlo)
      have hxpar : n₁.parentId ≠ some owner := chain_tail_parent_ne_head hcho hxlo hn₁
      have hxn : x ≠ newId := fun h => hfresh (h ▸ lookup_mem_keys hn₁)
      refine ⟨n₁, ?_, rfl, rfl⟩
      rw [breakSplitNodes_lookup_other before after newId hnd hxo hxn hn₁]
      simp [hxpar]
    obtain ⟨-, hfl⟩ := chain_agree hclo hag
    exact hfl _

/-- Claim C6: `breakAtPoint` at an interior offset `o` of a node `n` with
text `T` sets `n.text` to `T[0:o]`, creates exactly one new node with text
`T[o:]` whose parent is `n`, reparents every former child of `n` to the new
node, and returns `[n.id, newId]`; afterwards `fullText` of the new node
equals the pre-split `fullText(n)`. -/
theorem claim_C6 (s : NoteState) (cursorPos : Nat) (newId owner : String)
    (ownerNode : Node) (rest : List String) (nIdx off : Nat)
    (hnd : (s.nodes.map (·.1)).Nodup)
    (hchain : chainToRoot s.nodes (FUEL s.nodes) s.current = some (s.current :: rest))
    (hfind : findOwner ((ancestorsD s.nodes s.current ++ [s.current]).map (textOf s.nodes))
      cursorPos = some (nIdx, off))
    (howner : (ancestorsD s.nodes s.current ++ [s.current]).getD nIdx "" = owner)
    (hlook : lookupNode s.nodes owner = some ownerNode)
    (hfresh : newId ∉ s.nodes.map (·.1)) :
    (breakAtPoint s cursorPos newId).1 = (some owner, some newId) ∧
    lookupNode (breakAtPoint s cursorPos newId).2.nodes owner =
      some { ownerNode with text := jsTake ownerNode.text off } ∧
    lookupNode (breakAtPoint s cursorPos newId).2.nodes newId =
      some (mkNode (jsDrop ownerNode.text off) (some owner)) ∧
    (∀ x nx, x ≠ owner → x ≠ newId → lookupNode s.nodes x = some nx →
      lookupNode (breakAtPoint s cursorPos newId).2.nodes x =
        some (if nx.parentId = some owner then { nx with parentId := some newId } else nx)) ∧
    (breakAtPoint s cursorPos newId).2.nodes.length = s.nodes.length + 1 ∧
    fullText (breakAtPoint s cursorPos newId).2.nodes (some newId) =
      fullText s.nodes (some owner) := by
  have hltm : nIdx < ((ancestorsD s.nodes s.current ++ [s.current]).map
      (textOf s.nodes)).length := (findOwner_lt hfind).1
  have hltf : nIdx < (ancestorsD s.nodes s.current ++ [s.current]).length := by
    simpa using hltm
  have hT : ((ancestorsD s.nodes s.current ++ [s.current]).map (textOf s.nodes)).getD nIdx ""
      = ownerNode.text := by
    rw [List.getD_eq_getElem _ _ hltm, List.getElem_map, ← List.getD_eq_getElem _ _ hltf,
      howner]
    simp [textOf, hlook]
  have hbreak : breakAtPoint s cursorPos newId = ((some owner, some newId),
      { s with nodes := breakSplitNodes s.nodes owner (jsTake ownerNode.text off) (jsDrop ownerNode.text off) newId }) := by
    simp only [breakAtPoint, hfind]
    rw [howner, hT]
  have hanc : ancestorsD s.nodes s.current = rest.reverse := by
    simp [ancestorsD, ancestors, ancestorsLoop_eq_of_chain hchain]
  have hmemfam : owner ∈ ancestorsD s.nodes s.current ++ [s.current] := by
    rw [← howner, List.getD_eq_getElem _ _ hltf]
    exact List.getElem_mem _
  have hmemchain : owner ∈ s.current :: rest := by
    rw [hanc] at hmemfam
    rcases List.mem_append.mp hmemfam with hmem | hmem
    · exact List.mem_cons_of_mem _ (List.mem_reverse.mp hmem)
    · simp only [List.mem_singleton] at hmem
      exact hmem ▸ List.mem_cons_self _ _
  obtain ⟨lo, hcho⟩ : ∃ lo, chainToRoot s.nodes (FUEL s.nodes) owner = some (owner :: lo) := by
    obtain ⟨pre, l', hsplit, hch⟩ := chain_suffix hchain hmemchain
    obtain ⟨lo, rfl⟩ := chain_head hch
    exact ⟨lo, hch⟩
  have hself := chain_self_parent hcho hlook
  refine ⟨by rw [hbreak], ?_, ?_, ?_, ?_, ?_⟩
  · rw [hbreak]
    exact breakSplitNodes_lookup_owner _ _ _ hnd hlook hself
  · rw [hbreak]
    exact breakSplitNodes_lookup_new _ _ hfresh
  · intro x nx hxo hxn hx
    rw [hbreak]
    exact breakSplitNodes_lookup_other _ _ _ hnd hxo hxn hx
  · rw [hbreak]
    exact breakSplitNodes_length _ _ _ _ _
  · rw [hbreak]
    exact breakSplit_fullText hnd hlook hfresh (jsTake_append_jsDrop _ _) hcho

def exNodesC6 : List (String × Node) :=
  [("r", mkNode "ABCDE" none), ("k", mkNode "tail" (some "r"))]

def exStateC6 : NoteState :=
  { current := "r", hoisted := [], searchTerm := "", nodes := exNodesC6, generating := none }

/-- Witness for C6: splitting `"ABCDE"` at offset 2, with one pre-existing
child that must move under the split-off node. -/
theorem claim_C6_witness :
    (breakAtPoint exStateC6 2 "n1").1 = (some "r", some "n1") ∧
    lookupNode (breakAtPoint exStateC6 2 "n1").2.nodes "r" =
      some { mkNode "ABCDE" none with text := jsTake "ABCDE" 2 } ∧
    lookupNode (breakAtPoint exStateC6 2 "n1").2.nodes "n1" =
      some (mkNode (jsDrop "ABCDE" 2) (some "r")) ∧
    (∀ x nx, x ≠ "r" → x ≠ "n1" → lookupNode exNodesC6 x = some nx →
      lookupNode (breakAtPoint exStateC6 2 "n1").2.nodes x =
        some (if nx.parentId = some "r" then { nx with parentId := some "n1" } else nx)) ∧
    (breakAtPoint exStateC6 2 "n1").2.nodes.length = exNodesC6.length + 1 ∧
    fullText (breakAtPoint exStateC6 2 "n1").2.nodes (some "n1") =
      fullText exNodesC6 (some "r") :=
  claim_C6 exStateC6 2 "n1" "r" (mkNode "ABCDE" none) [] 0 2
    (by decide) (by decide) (by decide) (by decide) (by decide) (by decide)

theorem jsTake_zero (s : String) : jsTake s 0 = "" := by
  cases s with
  | mk data => simp [jsTake]

theorem jsDrop_zero (s : String) : jsDrop s 0 = s := by
  cases s with
  | mk data => simp [jsDrop]

def exNodesC5 : List (String × Node) := [("r", mkNode "ABCDE" none)]

def exStateC5 : NoteState :=
  { current := "r", hoisted := [], searchTerm := "", nodes := exNodesC5, generating := none }

/-- Counterexample to C5 as stated: with the cursor at global offset 0 (and
a non-empty owning node), `breakAtPoint` does NOT signal "create sibling"
by returning null — it splits, returning `[owner, newId]`, setting the
owner's text to `""` and creating a child holding the whole text. -/
theorem claim_C5_counterexample :
    (breakAtPoint exStateC5 0 "n1").1.2 = some "n1" ∧
    (breakAtPoint exStateC5 0 "n1").2 ≠ exStateC5 ∧
    lookupNode (breakAtPoint exStateC5 0 "n1").2.nodes "n1" =
      some (mkNode "ABCDE" (some "r")) := by decide

/-- Claim C5 (amended): with the cursor at the very end of the family text
`breakAtPoint` performs no split and returns `[current, null]` (signal
"create child of current"); with the cursor at local offset 0 of the owning
node it does NOT signal "create sibling": it splits like at any interior
offset, leaving the owning node with empty text and creating a child that
holds the owning node's whole text. -/
theorem claim_C5_amended (s : NoteState) (pos : Nat) (newId : String) :
    (findOwner ((ancestorsD s.nodes s.current ++ [s.current]).map (textOf s.nodes)) pos = none →
      breakAtPoint s pos newId = ((some s.current, none), s)) ∧
    (∀ owner ownerNode rest nIdx,
      (s.nodes.map (·.1)).Nodup →
      chainToRoot s.nodes (FUEL s.nodes) s.current = some (s.current :: rest) →
      findOwner ((ancestorsD s.nodes s.current ++ [s.current]).map (textOf s.nodes)) pos
        = some (nIdx, 0) →
      (ancestorsD s.nodes s.current ++ [s.current]).getD nIdx "" = owner →
      lookupNode s.nodes owner = some ownerNode →
      newId ∉ s.nodes.map (·.1) →
      (breakAtPoint s pos newId).1 = (some owner, some newId) ∧
      lookupNode (breakAtPoint s pos newId).2.nodes owner = some { ownerNode with text := "" } ∧
      lookupNode (breakAtPoint s pos newId).2.nodes newId =
        some (mkNode ownerNode.text (some owner))) := by
  constructor
  · intro hnone
    simp only [breakAtPoint, hnone]
  · intro owner ownerNode rest nIdx hnd hchain hfind howner hlook hfresh
    have hltm : nIdx < ((ancestorsD s.nodes s.current ++ [s.current]).map
        (textOf s.nodes)).length := (findOwner_lt hfind).1
    have hltf : nIdx < (ancestorsD s.nodes s.current ++ [s.current]).length := by
      simpa using hltm
    have hT : ((ancestorsD s.nodes s.current ++ [s.current]).map (textOf s.nodes)).getD nIdx ""
        = ownerNode.text := by
      rw [List.getD_eq_getElem _ _ hltm, List.getElem_map, ← List.getD_eq_getElem _ _ hltf,
        howner]
      simp [textOf, hlook]
    have hbreak : breakAtPoint s pos newId = ((some owner, some newId),
        { s with nodes := breakSplitNodes s.nodes owner "" ownerNode.text newId }) := by
      simp only [breakAtPoint, hfind]
      rw [howner, hT, jsTake_zero, jsDrop_zero]
    have hanc : ancestorsD s.nodes s.current = rest.reverse := by
      simp [ancestorsD, ancestors, ancestorsLoop_eq_of_chain hchain]
    have hmemfam : owner ∈ ancestorsD s.nodes s.current ++ [s.current] := by
      rw [← howner, List.getD_eq_getElem _ _ hltf]
      exact List.getElem_mem _
    have hmemchain : owner ∈ s.current :: rest := by
      rw [hanc] at hmemfam
      rcases List.mem_append.mp hmemfam with hmem | hmem
      · exact List.mem_cons_of_mem _ (List.mem_reverse.mp hmem)
      · simp only [List.mem_singleton] at hmem
        exact hmem ▸ List.mem_cons_self _ _
    obtain ⟨lo, hcho⟩ : ∃ lo, chainToRoot s.nodes (FUEL s.nodes) owner
        = some (owner :: lo) := by
      obtain ⟨pre, l', hsplit, hch⟩ := chain_suffix hchain hmemchain
      obtain ⟨lo, rfl⟩ := chain_head hch
      exact ⟨lo, hch⟩
    have hself := chain_self_parent hcho hlook
    refine ⟨by rw [hbreak], ?_, ?_⟩
    · rw [hbreak]
      exact breakSplitNodes_lookup_owner _ _ _ hnd hlook hself
    · rw [hbreak]
      exact breakSplitNodes_lookup_new _ _ hfresh

/-- Witness for the amended C5: the end-of-text case (offset 5 on
`"ABCDE"`) and the offset-0 case. -/
theorem claim_C5_amended_witness :
    breakAtPoint exStateC5 5 "n1" = ((some "r", none), exStateC5) ∧
    ((breakAtPoint exStateC5 0 "n1").1 = (some "r", some "n1") ∧
      lookupNode (breakAtPoint exStateC5 0 "n1").2.nodes "r" =
        some { mkNode "ABCDE" none with text := "" } ∧
      lookupNode (breakAtPoint exStateC5 0 "n1").2.nodes "n1" =
        some (mkNode (mkNode "ABCDE" none).text (some "r"))) :=
  ⟨(claim_C5_amended exStateC5 5 "n1").1 (by decide),
   (claim_C5_amended exStateC5 0 "n1").2 "r" (mkNode "ABCDE" none) [] 0
     (by decide) (by decide) (by decide) (by decide) (by decide) (by decide)⟩

/-! ## `loom:delete` (src/main.ts lines 836–904) and `canDelete` (476–485) -/

/-- Mirror of `canDelete`: a node is deletable unless it is the sole root. -/
def canDelete (m : List (String × Node)) (id : String) : Bool :=
  let roots := (m.filter (fun p => p.2.parentId = none)).map (·.1)
  if roots.length = 1 ∧ roots.getD 0 "" = id then false else true

/-- Parent field of a node (`state.nodes[id].parentId`). -/
def parentOf (m : List (String × Node)) (id : String) : Option String :=
  (lookupNode m id).bind (·.parentId)

/-- Descendant closure of `id` (the `addChildren` recursion of lines
852–859), fuel-indexed; only its membership is ever used by the source. -/
def descendantsD (m : List (String × Node)) : Nat → String → List String
  | 0, _ => []
  | f+1, id =>
    let cs := childrenOf m id
    cs ++ cs.flatMap (descendantsD m f)

/-- The surviving-ancestor walk of lines 877–885. -/
def findAlive (m : List (String × Node)) (deleted : List String) :
    Nat → Option String → Option String
  | _, none => none
  | 0, some _ => none
  | f+1, some a =>
    if deleted.contains a then findAlive m deleted f (parentOf m a) else some a

/-- Mirror of the `loom:delete` handler (lines 836–904): filter out
non-deletable ids, drop them from the hoist stack, collect the descendant
closure, reassign `current` when it is in the closure (next sibling after
the current index, else nearest surviving ancestor, else a surviving root —
exactly as the source selects them), then remove the closure from the map. -/
def deleteRun (s : NoteState) (buf : String) (ids₀ : List String) (now : Nat) :
    NoteState × String :=
  let ids := ids₀.filter (fun id => canDelete s.nodes id)
  if ids.isEmpty then (s, buf)
  else
    let s₁ := { s with hoisted := s.hoisted.filter (fun h => ! ids.contains h) }
    let deleted := ids ++ ids.flatMap (descendantsD s₁.nodes s₁.nodes.length)
    let sb :=
      if deleted.contains s₁.current then
        let parentId := parentOf s₁.nodes s₁.current
        let siblings := (s₁.nodes.filter (fun p => p.2.parentId = parentId)).map (·.1)
        if siblings.any (fun i => ! deleted.contains i) then
          -- `siblings[(index + 1) % siblings.length]`: the source does NOT
          -- re-check that this sibling survives
          switchTo s₁ (siblings.getD ((siblings.indexOf s₁.current + 1) % siblings.length) "") now
        else
          match findAlive s₁.nodes deleted (FUEL s₁.nodes) parentId with
          | some a => switchTo s₁ a now
          | none =>
            match ((s₁.nodes.filter (fun p => p.2.parentId = none)).map (·.1)).find?
                (fun i => ! deleted.contains i) with
            | some r => switchTo s₁ r now
            | none => (s₁, buf)
      else (s₁, buf)
    ({ sb.1 with nodes := sb.1.nodes.filter (fun p => ! deleted.contains p.1) }, sb.2)

/-! ## `loom:merge-with-parent` (src/main.ts lines 809–834) and `canMerge`
(385–397) -/

/-- Mirror of `canMerge`: the node must have a parent, and that parent must
have no other child (`nSiblings > 1` counts every node whose `parentId` is
the parent, including `id` itself). -/
def canMergeB (m : List (String × Node)) (id : String) : Bool :=
  match parentOf m id with
  | none => false
  | some parentId =>
    if (m.filter (fun p => p.2.parentId = some parentId)).length > 1 then false else true

/-- Node-map effect of the merge (lines 819–827): append the node's text to
its parent's, then reparent the node's children to the parent. -/
def mergeNodes (m : List (String × Node)) (id parentId : String) : List (String × Node) :=
  let nodes₁ := mapVals m
    (fun k v => if k = parentId then { v with text := v.text ++ textOf m id } else v)
  let childs := (nodes₁.filter (fun p => p.2.parentId = some id)).map (·.1)
  mapVals nodes₁ (fun k v => if k ∈ childs then { v with parentId := some parentId } else v)

/-- Mirror of the `loom:merge-with-parent` handler: append the node's text
to its parent's, reparent the node's children to the parent, switch to the
parent and delete the node. -/
def mergeRun (s : NoteState) (buf : String) (id : String) (now : Nat) : NoteState × String :=
  if canMergeB s.nodes id = false then (s, buf)
  else
    let parentId := (parentOf s.nodes id).getD ""
    let sb := switchTo { s with nodes := mergeNodes s.nodes id parentId } parentId now
    deleteRun sb.1 sb.2 [id] now

theorem mem_rootKeys {m : List (String × Node)} (hnd : (m.map (·.1)).Nodup) (x : String) :
    (x ∈ (m.filter (fun p => p.2.parentId = none)).map (·.1)) ↔
      ∃ v, lookupNode m x = some v ∧ v.parentId = none := by
  have h := mem_filterKeys hnd (fun v => decide (v.parentId = none)) x
  simpa using h

theorem canDelete_of_parent {m : List (String × Node)} (hnd : (m.map (·.1)).Nodup)
    {id p : String} {v : Node} (hv : lookupNode m id = some v)
    (hp : v.parentId = some p) : canDelete m id = true := by
  simp only [canDelete]
  split
  · next hcond =>
    exfalso
    obtain ⟨hlen, hget⟩ := hcond
    have hmem : ((m.filter (fun q => q.2.parentId = none)).map (·.1)).getD 0 "" ∈
        (m.filter (fun q => q.2.parentId = none)).map (·.1) := by
      rw [List.getD_eq_getElem _ _ (by rw [hlen]; omega)]
      exact List.getElem_mem _
    rw [hget] at hmem
    obtain ⟨v', hv', hpar'⟩ := (mem_rootKeys hnd id).mp hmem
    rw [hv] at hv'
    obtain rfl := Option.some.inj hv'
    rw [hp] at hpar'
    exact Option.noConfusion hpar'
  · rfl

theorem lookup_of_mem {m : List (String × Node)} (hnd : (m.map (·.1)).Nodup)
    {k : String} {v : Node} (hmem : (k, v) ∈ m) : lookupNode m k = some v := by
  induction m with
  | nil => simp at hmem
  | cons p rest ih =>
    have hnd' : (rest.map (·.1)).Nodup := (List.nodup_cons.mp (by simpa using hnd)).2
    have hxn : p.1 ∉ rest.map (·.1) := (List.nodup_cons.mp (by simpa using hnd)).1
    rcases List.mem_cons.mp hmem with rfl | hmem'
    · rw [lookupNode_cons, if_pos rfl]
    · by_cases hk : p.1 = k
      · exfalso
        have : k ∈ rest.map (·.1) := List.mem_map_of_mem (fun r : String × Node => r.1) hmem'
        exact hxn (hk ▸ this)
      · rw [lookupNode_cons, if_neg hk]
        exact ih hnd' hmem'

theorem childrenOf_eq_nil {m : List (String × Node)} {id : String}
    (h : ∀ p ∈ m, p.2.parentId ≠ some id) : childrenOf m id = [] := by
  simp only [childrenOf, List.map_eq_nil_iff, List.filter_eq_nil_iff]
  intro p hp
  simpa using h p hp

theorem descendantsD_nil {m : List (String × Node)} {id : String}
    (h : childrenOf m id = []) (f : Nat) : descendantsD m f id = [] := by
  cases f with
  | zero => rfl
  | succ f => simp [descendantsD, h]

theorem switchTo_nodes_length (s : NoteState) (id : String) (now : Nat) :
    (switchTo s id now).1.nodes.length = s.nodes.length := by
  simp [switchTo, length_mapVals]

theorem switchTo_keys (s : NoteState) (id : String) (now : Nat) :
    (switchTo s id now).1.nodes.map (·.1) = s.nodes.map (·.1) := by
  simp [switchTo, keys_mapVals]

/-- Behaviour of the delete handler on a single deletable, childless id
that is not the current node: it is simply dropped from the hoist stack and
the node map. -/
theorem deleteRun_single_nocurrent (s : NoteState) (buf : String) (id : String) (now : Nat)
    (hcan : canDelete s.nodes id = true)
    (hnochild : childrenOf s.nodes id = [])
    (hcur : s.current ≠ id) :
    deleteRun s buf [id] now =
      ({ s with hoisted := s.hoisted.filter (fun h => ! [id].contains h),
                nodes := s.nodes.filter (fun p => ! [id].contains p.1) }, buf) := by
  have hfilter : [id].filter (fun i => canDelete s.nodes i) = [id] := by
    simp [hcan]
  have hdesc : descendantsD s.nodes s.nodes.length id = [] :=
    descendantsD_nil hnochild _
  have hdel : [id] ++ [id].flatMap (descendantsD s.nodes s.nodes.length) = [id] := by
    simp [hdesc]
  have hnotcontains : ([id].contains s.current) = false := by
    simp [hcur]
  simp only [deleteRun, hfilter, List.isEmpty_cons, hdel, hnotcontains]
  simp

theorem mergeNodes_keys (m : List (String × Node)) (id parentId : String) :
    (mergeNodes m id parentId).map (·.1) = m.map (·.1) := by
  simp [mergeNodes, keys_mapVals]

theorem mergeNodes_length (m : List (String × Node)) (id parentId : String) :
    (mergeNodes m id parentId).length = m.length := by
  simp [mergeNodes, length_mapVals]

theorem mergeNodes_lookup_isSome (m : List (String × Node)) (id parentId x : String) :
    (lookupNode (mergeNodes m id parentId) x).isSome = (lookupNode m x).isSome := by
  simp only [mergeNodes, lookupNode_mapVals]
  cases lookupNode m x <;> rfl

theorem mergeNodes_lookup_id {m : List (String × Node)} {id parentId : String} {n : Node}
    (hnd : (m.map (·.1)).Nodup) (hn : lookupNode m id = some n)
    (hpi : id ≠ parentId) (hself : n.parentId ≠ some id) :
    lookupNode (mergeNodes m id parentId) id = some n := by
  have h₁ : lookupNode (mapVals m
      (fun k v => if k = parentId then { v with text := v.text ++ textOf m id } else v)) id
      = some n := by
    rw [lookupNode_mapVals, hn]
    simp [hpi]
  have hnd₁ : ((mapVals m
      (fun k v => if k = parentId then { v with text := v.text ++ textOf m id } else v)).map
      (·.1)).Nodup := by rw [keys_mapVals]; exact hnd
  have hnotchild : id ∉ ((mapVals m
      (fun k v => if k = parentId then { v with text := v.text ++ textOf m id } else v)).filter
        (fun p => p.2.parentId = some id)).map (·.1) := by
    rw [mem_childKeys hnd₁]
    rintro ⟨v, hv, hqv⟩
    rw [h₁] at hv
    obtain rfl := Option.some.inj hv
    exact hself hqv
  simp only [mergeNodes, lookupNode_mapVals, h₁, Option.map_some']
  simp [hnotchild]

theorem mergeNodes_lookup_parent {m : List (String × Node)} {id parentId : String}
    {n pn : Node}
    (hnd : (m.map (·.1)).Nodup) (hn : lookupNode m id = some n)
    (hpn : lookupNode m parentId = some pn)
    (hpnpar : pn.parentId ≠ some id) :
    lookupNode (mergeNodes m id parentId) parentId =
      some { pn with text := pn.text ++ n.text } := by
  have h₁ : lookupNode (mapVals m
      (fun k v => if k = parentId then { v with text := v.text ++ textOf m id } else v)) parentId
      = some { pn with text := pn.text ++ n.text } := by
    rw [lookupNode_mapVals, hpn]
    simp [textOf, hn]
  have hnd₁ : ((mapVals m
      (fun k v => if k = parentId then { v with text := v.text ++ textOf m id } else v)).map
      (·.1)).Nodup := by rw [keys_mapVals]; exact hnd
  have hnotchild : parentId ∉ ((mapVals m
      (fun k v => if k = parentId then { v with text := v.text ++ textOf m id } else v)).filter
        (fun p => p.2.parentId = some id)).map (·.1) := by
    rw [mem_childKeys hnd₁]
    rintro ⟨v, hv, hqv⟩
    rw [h₁] at hv
    obtain rfl := Option.some.inj hv
    exact hpnpar hqv
  simp only [mergeNodes, lookupNode_mapVals, h₁, Option.map_some']
  simp [hnotchild]

theorem mergeNodes_lookup_child {m : List (String × Node)} {id parentId c : String}
    {cn : Node}
    (hnd : (m.map (·.1)).Nodup) (hc : lookupNode m c = some cn)
    (hcp : c ≠ parentId) (hcpar : cn.parentId = some id) :
    lookupNode (mergeNodes m id parentId) c =
      some { cn with parentId := some parentId } := by
  have h₁ : lookupNode (mapVals m
      (fun k v => if k = parentId then { v with text := v.text ++ textOf m id } else v)) c
      = some cn := by
    rw [lookupNode_mapVals, hc]
    simp [hcp]
  have hnd₁ : ((mapVals m
      (fun k v => if k = parentId then { v with text := v.text ++ textOf m id } else v)).map
      (·.1)).Nodup := by rw [keys_mapVals]; exact hnd
  have hchild : c ∈ ((mapVals m
      (fun k v => if k = parentId then { v with text := v.text ++ textOf m id } else v)).filter
        (fun p => p.2.parentId = some id)).map (·.1) := by
    rw [mem_childKeys hnd₁]
    exact ⟨cn, h₁, hcpar⟩
  simp only [mergeNodes, lookupNode_mapVals, h₁, Option.map_some']
  simp [hchild]

/-- After a merge (with `parentId ≠ id`), no surviving entry still points at
`id` as its parent. -/
theorem mergeNodes_no_child {m : List (String × Node)} {id parentId : String}
    (hnd : (m.map (·.1)).Nodup) (hpi : parentId ≠ id) :
    ∀ q ∈ mergeNodes m id parentId, q.2.parentId ≠ some id := by
  intro q hq
  have hnd₁ : ((mapVals m
      (fun k v => if k = parentId then { v with text := v.text ++ textOf m id } else v)).map
      (·.1)).Nodup := by rw [keys_mapVals]; exact hnd
  simp only [mergeNodes] at hq
  obtain ⟨⟨k, v₁⟩, hkv₁, heq⟩ := List.mem_map.mp hq
  subst heq
  dsimp only
  by_cases hmem : k ∈ ((mapVals m
      (fun k v => if k = parentId then { v with text := v.text ++ textOf m id } else v)).filter
        (fun p => p.2.parentId = some id)).map (·.1)
  · rw [if_pos hmem]
    intro hcontra
    simp only [Option.some.injEq] at hcontra
    exact hpi hcontra
  · rw [if_neg hmem]
    intro hcontra
    exact hmem ((mem_childKeys hnd₁ _ _).mpr ⟨v₁, lookup_of_mem hnd₁ hkv₁, hcontra⟩)

theorem lookupNode_filter_not_mem (m : List (String × Node)) (ids : List String) (x : String) :
    lookupNode (m.filter (fun p => ! ids.contains p.1)) x =
      if ids.contains x then none else lookupNode m x := by
  have h := lookupNode_filter_key m (fun k => ! ids.contains k) x
  by_cases hc : ids.contains x
  · simpa [hc] using h
  · simpa [hc] using h

/-- Claim C7: `mergeWithParent(id)` fails (tree unchanged) iff `id` has no
parent or `id`'s parent has more than one child; otherwise the parent's
text becomes `parent.text + id.text` (the parent keeps its id), every child
of `id` is reparented to the parent, `id` is removed from the node map, and
`current` becomes the parent. -/
theorem claim_C7 (s : NoteState) (buf : String) (id : String) (n : Node)
    (rest : List String) (now : Nat)
    (hnd : (s.nodes.map (·.1)).Nodup)
    (hn : lookupNode s.nodes id = some n)
    (hchain : chainToRoot s.nodes (FUEL s.nodes) id = some (id :: rest)) :
    (canMergeB s.nodes id = false ↔
      (n.parentId = none ∨ ∃ p, n.parentId = some p ∧
        1 < (s.nodes.filter (fun q => q.2.parentId = some p)).length)) ∧
    (canMergeB s.nodes id = false → mergeRun s buf id now = (s, buf)) ∧
    (∀ p pn, n.parentId = some p → lookupNode s.nodes p = some pn →
      canMergeB s.nodes id = true →
      (mergeRun s buf id now).1.current = p ∧
      lookupNode (mergeRun s buf id now).1.nodes id = none ∧
      ((lookupNode (mergeRun s buf id now).1.nodes p).map Node.text)
        = some (pn.text ++ n.text) ∧
      ((lookupNode (mergeRun s buf id now).1.nodes p).map Node.parentId)
        = some pn.parentId ∧
      (∀ c cn, c ≠ id → lookupNode s.nodes c = some cn → cn.parentId = some id →
        ((lookupNode (mergeRun s buf id now).1.nodes c).map Node.parentId)
          = some (some p)) ∧
      (∀ x, x ≠ id →
        (lookupNode (mergeRun s buf id now).1.nodes x).isSome
          = (lookupNode s.nodes x).isSome)) := by
  have hparentOf : parentOf s.nodes id = n.parentId := by simp [parentOf, hn]
  refine ⟨?_, ?_, ?_⟩
  · simp only [canMergeB, hparentOf]
    cases hp : n.parentId with
    | none => simp
    | some p =>
      by_cases hgt : (s.nodes.filter (fun q => q.2.parentId = some p)).length > 1
      · simp [hgt]
      · simp [hgt]
  · intro hcm
    simp [mergeRun, hcm]
  · intro p pn hp hpn hcm
    have hselfpar : n.parentId ≠ some id := chain_self_parent hchain hn
    have hpid : p ≠ id := fun h => hselfpar (by rw [hp, h])
    have hgetD : (parentOf s.nodes id).getD "" = p := by simp [parentOf, hn, hp]
    obtain ⟨rest₂, hrest⟩ : ∃ rest₂, rest = p :: rest₂ := by
      have h := hchain
      simp only [FUEL, chainToRoot, hn, hp, Option.map_eq_some'] at h
      obtain ⟨lp, hlp, heq⟩ := h
      have hlp_rest : lp = rest := by simpa using heq
      obtain ⟨r₂, hr⟩ := chain_head hlp
      exact ⟨r₂, by rw [← hlp_rest, hr]⟩
    have hpmem : p ∈ rest := by rw [hrest]; exact List.mem_cons_self _ _
    have hpnpar : pn.parentId ≠ some id := chain_tail_parent_ne_head hchain hpmem hpn
    have hmid : lookupNode (mergeNodes s.nodes id p) id = some n :=
      mergeNodes_lookup_id hnd hn (fun h => hpid h.symm) hselfpar
    have hmp : lookupNode (mergeNodes s.nodes id p) p =
        some { pn with text := pn.text ++ n.text } :=
      mergeNodes_lookup_parent hnd hn hpn hpnpar
    have hrun : mergeRun s buf id now =
        deleteRun (switchTo { s with nodes := mergeNodes s.nodes id p } p now).1
          (switchTo { s with nodes := mergeNodes s.nodes id p } p now).2 [id] now := by
      unfold mergeRun
      rw [if_neg (by simp [hcm]), hgetD]
    set s₂ := (switchTo { s with nodes := mergeNodes s.nodes id p } p now).1 with hs₂
    set b₂ := (switchTo { s with nodes := mergeNodes s.nodes id p } p now).2 with hb₂
    have hs₂cur : s₂.current = p := rfl
    have hs₂keys : s₂.nodes.map (·.1) = s.nodes.map (·.1) := by
      rw [hs₂, switchTo_keys]
      exact mergeNodes_keys s.nodes id p
    have hs₂nd : (s₂.nodes.map (·.1)).Nodup := by rw [hs₂keys]; exact hnd
    have hs₂pair : ∀ x, (lookupNode s₂.nodes x).map (fun v => (v.text, v.parentId)) =
        (lookupNode (mergeNodes s.nodes id p) x).map (fun v => (v.text, v.parentId)) :=
      fun x => switchTo_preserves_text_parent { s with nodes := mergeNodes s.nodes id p } p now x
    obtain ⟨vid, hvid, hvidpar⟩ : ∃ vid, lookupNode s₂.nodes id = some vid ∧
        vid.parentId = some p := by
      have h := hs₂pair id
      rw [hmid] at h
      obtain ⟨vid, hvid, hpairv⟩ := Option.map_eq_some'.mp h
      refine ⟨vid, hvid, ?_⟩
      have := (Prod.mk.injEq _ _ _ _ ▸ hpairv).2
      rw [this, hp]
    have hcand : canDelete s₂.nodes id = true := canDelete_of_parent hs₂nd hvid hvidpar
    have hchild : childrenOf s₂.nodes id = [] := by
      apply childrenOf_eq_nil
      intro q hq
      rw [hs₂] at hq
      simp only [switchTo] at hq
      obtain ⟨⟨k₁, v₁⟩, h1, heq1⟩ := List.mem_map.mp hq
      obtain ⟨⟨k₀, v₀⟩, h0, heq0⟩ := List.mem_map.mp h1
      have hk : k₁ = k₀ := by
        have := congrArg Prod.fst heq0
        exact this.symm
      have hv : v₁ = (if k₀ = p then { v₀ with unread := false, lastVisited := some now }
          else v₀) := by
        have := congrArg Prod.snd heq0
        exact this.symm
      have hqpar : q.2.parentId = v₀.parentId := by
        rw [← heq1]
        dsimp only
        rw [hv]
        split
        · split <;> rfl
        · split <;> rfl
      rw [hqpar]
      exact mergeNodes_no_child hnd hpid (k₀, v₀) h0
    have hcur : s₂.current ≠ id := by rw [hs₂cur]; exact hpid
    have hdelete := deleteRun_single_nocurrent s₂ b₂ id now hcand hchild hcur
    rw [hrun, hdelete]
    refine ⟨hs₂cur, ?_, ?_, ?_, ?_, ?_⟩
    · show lookupNode (s₂.nodes.filter (fun q => ! [id].contains q.1)) id = none
      rw [lookupNode_filter_not_mem]
      simp
    · show (lookupNode (s₂.nodes.filter (fun q => ! [id].contains q.1)) p).map Node.text = _
      rw [lookupNode_filter_not_mem]
      rw [if_neg (by simp [hpid])]
      have h := hs₂pair p
      rw [hmp] at h
      obtain ⟨vp, hvp, hpairv⟩ := Option.map_eq_some'.mp h
      rw [hvp]
      have := (Prod.mk.injEq _ _ _ _ ▸ hpairv).1
      simpa using this
    · show (lookupNode (s₂.nodes.filter (fun q => ! [id].contains q.1)) p).map Node.parentId = _
      rw [lookupNode_filter_not_mem]
      rw [if_neg (by simp [hpid])]
      have h := hs₂pair p
      rw [hmp] at h
      obtain ⟨vp, hvp, hpairv⟩ := Option.map_eq_some'.mp h
      rw [hvp]
      have := (Prod.mk.injEq _ _ _ _ ▸ hpairv).2
      simpa using this
    · intro c cn hcid hc hcpar
      have hcne : c ≠ p := by
        intro hcp
        rw [hcp, hpn] at hc
        obtain rfl := Option.some.inj hc
        exact hpnpar hcpar
      have hmc : lookupNode (mergeNodes s.nodes id p) c =
          some { cn with parentId := some p } :=
        mergeNodes_lookup_child hnd hc hcne hcpar
      show (lookupNode (s₂.nodes.filter (fun q => ! [id].contains q.1)) c).map Node.parentId = _
      rw [lookupNode_filter_not_mem]
      rw [if_neg (by simp [hcid])]
      have h := hs₂pair c
      rw [hmc] at h
      obtain ⟨vc, hvc, hpairv⟩ := Option.map_eq_some'.mp h
      rw [hvc]
      have := (Prod.mk.injEq _ _ _ _ ▸ hpairv).2
      simpa using this
    · intro x hx
      show (lookupNode (s₂.nodes.filter (fun q => ! [id].contains q.1)) x).isSome = _
      rw [lookupNode_filter_not_mem]
      rw [if_neg (by simp [hx])]
      have h := hs₂pair x
      have hsome : (lookupNode s₂.nodes x).isSome =
          (lookupNode (mergeNodes s.nodes id p) x).isSome := by
        have := congrArg Option.isSome h
        simpa using this
      rw [hsome, mergeNodes_lookup_isSome]

def exNodesC7 : List (String × Node) :=
  [("r", mkNode "Hello " none), ("c", mkNode "world" (some "r")), ("g", mkNode "!" (some "c"))]

def exStateC7 : NoteState :=
  { current := "c", hoisted := [], searchTerm := "", nodes := exNodesC7, generating := none }

/-- Witness for C7: merging the single child `"c"` into the root `"r"`,
with a grandchild `"g"` that must be reparented to `"r"`. -/
theorem claim_C7_witness :
    (mergeRun exStateC7 "" "c" 3).1.current = "r" ∧
    lookupNode (mergeRun exStateC7 "" "c" 3).1.nodes "c" = none ∧
    ((lookupNode (mergeRun exStateC7 "" "c" 3).1.nodes "r").map Node.text)
      = some ((mkNode "Hello " none).text ++ (mkNode "world" (some "r")).text) ∧
    ((lookupNode (mergeRun exStateC7 "" "c" 3).1.nodes "r").map Node.parentId)
      = some (mkNode "Hello " none).parentId ∧
    (∀ c cn, c ≠ "c" → lookupNode exNodesC7 c = some cn → cn.parentId = some "c" →
      ((lookupNode (mergeRun exStateC7 "" "c" 3).1.nodes c).map Node.parentId)
        = some (some "r")) ∧
    (∀ x, x ≠ "c" →
      (lookupNode (mergeRun exStateC7 "" "c" 3).1.nodes x).isSome
        = (lookupNode exNodesC7 x).isSome) :=
  (claim_C7 exStateC7 "" "c" (mkNode "world" (some "r")) ["r"] 3
    (by decide) (by decide) (by decide)).2.2 "r" (mkNode "Hello " none)
    rfl (by decide) (by decide)

def exNodesC8 : List (String × Node) :=
  [("R", mkNode "root" none), ("A", mkNode "a" (some "R")),
   ("B", mkNode "b" (some "R")), ("C", mkNode "c" (some "R"))]

def exStateC8 : NoteState :=
  { current := "A", hoisted := [], searchTerm := "", nodes := exNodesC8, generating := none }

/-- Claim C8 fails on the code: deleting `[A, B]` (current = `A`, siblings
in order `A, B, C`) passes the "some sibling survives" guard thanks to `C`,
but then `current` is set to `siblings[(index+1) % len] = B` without
re-checking that `B` survives — `B` is itself deleted, so `current` ends up
dangling while the surviving sibling `C` is still in the map. -/
theorem claim_C8_code_bug :
    (deleteRun exStateC8 "" ["A", "B"] 9).1.current = "B" ∧
    lookupNode (deleteRun exStateC8 "" ["A", "B"] 9).1.nodes "B" = none ∧
    lookupNode (deleteRun exStateC8 "" ["A", "B"] 9).1.nodes "C" =
      some (mkNode "c" (some "R")) := by decide

/-! ## `loom:search` (src/main.ts lines 954–991) -/

/-- The ancestor-collection loop of lines 972–979: starting from a match's
`parentId`, push every ancestor walking up to the root. -/
def ancChainUp (m : List (String × Node)) : Nat → Option String → List String
  | _, none => []
  | 0, some _ => []
  | f+1, some pid => pid :: ancChainUp m f (parentOf m pid)

/-- Case-insensitive substring match of line 969:
`node.text.toLowerCase().includes(term.toLowerCase())`. -/
def isMatchB (term : String) (n : Node) : Bool :=
  includesStr (toLowerStr n.text) (toLowerStr term)

/-- Mirror of the `loom:search` handler: an empty term clears every node's
`searchResultState` to null; otherwise mark matches "result", ancestors of
matches "ancestor" and everything else "none". -/
def searchRun (s : NoteState) (term : String) : NoteState :=
  let s₀ := { s with searchTerm := term }
  if term = "" then
    let cleared := mapVals s₀.nodes (fun _ v => { v with searchResultState := none })
    { s₀ with nodes := cleared }
  else
    let matchIds : List String := (s₀.nodes.filter (fun p => isMatchB term p.2)).map (·.1)
    let ancIds : List String := matchIds.flatMap
      (fun id => ancChainUp s₀.nodes (FUEL s₀.nodes) (parentOf s₀.nodes id))
    let marked := mapVals s₀.nodes (fun k v =>
      { v with searchResultState := some (if k ∈ matchIds then SearchResultState.result
          else if k ∈ ancIds then SearchResultState.ancestor
          else SearchResultState.noMatch) })
    { s₀ with nodes := marked }

/-- Membership in the match list is the lookup-based match property. -/
theorem mem_matchIds {s : NoteState} {term : String} (hnd : (s.nodes.map (·.1)).Nodup)
    {id : String} {n : Node} (hlk : lookupNode s.nodes id = some n) :
    (id ∈ (s.nodes.filter (fun p => isMatchB term p.2)).map (·.1)) ↔
      isMatchB term n = true := by
  rw [mem_filterKeys hnd]
  constructor
  · rintro ⟨v, hv, hqv⟩
    rw [hlk] at hv
    obtain rfl := Option.some.inj hv
    exact hqv
  · intro hm
    exact ⟨n, hlk, hm⟩

/-- Membership in the ancestor list is "ancestor of some matching entry". -/
theorem mem_ancIds {s : NoteState} {term : String} (id : String) :
    (id ∈ ((s.nodes.filter (fun p => isMatchB term p.2)).map (·.1)).flatMap
        (fun mt => ancChainUp s.nodes (FUEL s.nodes) (parentOf s.nodes mt))) ↔
      ∃ q ∈ s.nodes, isMatchB term q.2 = true ∧
        id ∈ ancChainUp s.nodes (FUEL s.nodes) (parentOf s.nodes q.1) := by
  rw [List.mem_flatMap]
  constructor
  · rintro ⟨mt, hmt, hid⟩
    obtain ⟨q, hq, rfl⟩ := List.mem_map.mp hmt
    obtain ⟨hqmem, hqmatch⟩ := List.mem_filter.mp hq
    exact ⟨q, hqmem, hqmatch, hid⟩
  · rintro ⟨q, hqmem, hqmatch, hid⟩
    exact ⟨q.1, List.mem_map_of_mem _ (List.mem_filter.mpr ⟨hqmem, hqmatch⟩), hid⟩

/-- Claim C9: `search(term)` with a non-empty term assigns "result" to
every node whose text contains the term case-insensitively, "ancestor" to
every other node that is a proper ancestor of some matching node, and
"none" to all remaining nodes; `search("")` clears every node's
`searchResultState` to null. -/
theorem claim_C9 (s : NoteState) (term : String) (hnd : (s.nodes.map (·.1)).Nodup) :
    (∀ id n, lookupNode s.nodes id = some n →
      lookupNode (searchRun s "").nodes id =
        some { n with searchResultState := none }) ∧
    (term ≠ "" → ∀ id n, lookupNode s.nodes id = some n →
      ((isMatchB term n = true →
        lookupNode (searchRun s term).nodes id =
          some { n with searchResultState := some SearchResultState.result }) ∧
       (isMatchB term n = false →
        (∃ q ∈ s.nodes, isMatchB term q.2 = true ∧
          id ∈ ancChainUp s.nodes (FUEL s.nodes) (parentOf s.nodes q.1)) →
        lookupNode (searchRun s term).nodes id =
          some { n with searchResultState := some SearchResultState.ancestor }) ∧
       (isMatchB term n = false →
        ¬ (∃ q ∈ s.nodes, isMatchB term q.2 = true ∧
          id ∈ ancChainUp s.nodes (FUEL s.nodes) (parentOf s.nodes q.1)) →
        lookupNode (searchRun s term).nodes id =
          some { n with searchResultState := some SearchResultState.noMatch }))) := by
  constructor
  · intro id n hlk
    simp [searchRun, lookupNode_mapVals, hlk]
  · intro hterm id n hlk
    have hmm : (id ∈ (s.nodes.filter (fun p => isMatchB term p.2)).map (·.1)) ↔
        isMatchB term n = true := mem_matchIds hnd hlk
    have hma : (id ∈ ((s.nodes.filter (fun p => isMatchB term p.2)).map (·.1)).flatMap
          (fun mt => ancChainUp s.nodes (FUEL s.nodes) (parentOf s.nodes mt))) ↔
        ∃ q ∈ s.nodes, isMatchB term q.2 = true ∧
          id ∈ ancChainUp s.nodes (FUEL s.nodes) (parentOf s.nodes q.1) := mem_ancIds id
    refine ⟨?_, ?_, ?_⟩
    · intro hmatch
      simp only [searchRun, if_neg hterm, lookupNode_mapVals, hlk, Option.map_some']
      rw [if_pos (hmm.mpr hmatch)]
    · intro hnomatch hanc
      simp only [searchRun, if_neg hterm, lookupNode_mapVals, hlk, Option.map_some']
      rw [if_neg (fun hmem => by simp [hmm.mp hmem] at hnomatch),
        if_pos (hma.mpr hanc)]
    · intro hnomatch hnoanc
      simp only [searchRun, if_neg hterm, lookupNode_mapVals, hlk, Option.map_some']
      rw [if_neg (fun hmem => by simp [hmm.mp hmem] at hnomatch),
        if_neg (fun hmem => hnoanc (hma.mp hmem))]

def exNodesC9 : List (String × Node) :=
  [("root", mkNode "cat" none), ("child", mkNode "dog" (some "root"))]

def exStateC9 : NoteState :=
  { current := "root", hoisted := [], searchTerm := "", nodes := exNodesC9, generating := none }

/-- Witness for C9: over `(root: "cat", child: "dog")`, searching `"cat"`
marks the root "result" and the child "none"; searching `""` clears the
root's state to null. -/
theorem claim_C9_witness :
    lookupNode (searchRun exStateC9 "cat").nodes "root" =
      some { mkNode "cat" none with searchResultState := some SearchResultState.result } ∧
    lookupNode (searchRun exStateC9 "cat").nodes "child" =
      some { mkNode "dog" (some "root") with
        searchResultState := some SearchResultState.noMatch } ∧
    lookupNode (searchRun exStateC9 "").nodes "root" =
      some { mkNode "cat" none with searchResultState := none } :=
  ⟨((claim_C9 exStateC9 "cat" (by decide)).2 (by decide) "root" (mkNode "cat" none)
      (by decide)).1 (by decide),
   ((claim_C9 exStateC9 "cat" (by decide)).2 (by decide) "child"
      (mkNode "dog" (some "root")) (by decide)).2.2 (by decide) (by decide),
   (claim_C9 exStateC9 "cat" (by decide)).1 "root" (mkNode "cat" none) (by decide)⟩

/-- Claim C10: in a non-empty search, "result" takes precedence over
"ancestor": a node whose own text matches the term is assigned "result"
even when it is also a proper ancestor of another matching node. -/
theorem claim_C10 (s : NoteState) (term : String) (id : String) (n : Node)
    (hnd : (s.nodes.map (·.1)).Nodup) (hterm : term ≠ "")
    (hlk : lookupNode s.nodes id = some n) (hmatch : isMatchB term n = true) :
    lookupNode (searchRun s term).nodes id =
      some { n with searchResultState := some SearchResultState.result } := by
  have hmm : (id ∈ (s.nodes.filter (fun p => isMatchB term p.2)).map (·.1)) ↔
      isMatchB term n = true := mem_matchIds hnd hlk
  simp only [searchRun, if_neg hterm, lookupNode_mapVals, hlk, Option.map_some']
  rw [if_pos (hmm.mpr hmatch)]

def exNodesC10 : List (String × Node) :=
  [("root", mkNode "cat" none), ("child", mkNode "catalog" (some "root"))]

def exStateC10 : NoteState :=
  { current := "root", hoisted := [], searchTerm := "", nodes := exNodesC10, generating := none }

/-- Witness for C10: the root both matches `"cat"` and is a proper ancestor
of the matching child, and it is assigned "result". -/
theorem claim_C10_witness :
    lookupNode (searchRun exStateC10 "cat").nodes "root" =
      some { mkNode "cat" none with searchResultState := some SearchResultState.result } ∧
    ("root" ∈ ancChainUp exNodesC10 (FUEL exNodesC10) (parentOf exNodesC10 "child") ∧
      isMatchB "cat" (mkNode "catalog" (some "root")) = true) :=
  ⟨claim_C10 exStateC10 "cat" "root" (mkNode "cat" none)
      (by decide) (by decide) (by decide) (by decide),
   by decide⟩

/-! ## `generate` (src/main.ts lines 1154–1230) -/

/-- Outcome of the awaited provider call (lines 1187–1197): the method may
throw, resolve to a non-ok result, or resolve to completions (an individual
completion may be null — line 1202). -/
inductive GenOutcome where
  | threw (msg : String)
  | errResult (status : Nat) (message : String)
  | okResult (completions : List (Option String))
  deriving DecidableEq, Repr

/-- Post-processing of one completion (lines 1201–1214): null becomes the
empty string, `<` and `[` are escaped for the host, and the
prompt/completion boundary space is normalised: chat providers always get
one space inserted when the prompt had no trailing whitespace; other
providers drop a duplicated leading space. -/
def postProcess (chatProvider : Bool) (trailingSpace : Bool)
    (completion : Option String) : String :=
  let c := completion.getD ""
  let c := jsReplaceAllChar c '<' ['\\', '<']
  let c := jsReplaceAllChar c '[' ['\\', '[']
  if chatProvider then
    (if ! trailingSpace then " " ++ c else c)
  else if trailingSpace ∧ c.data.head? = some ' ' then jsDrop c 1
  else c

/-- Mirror of `generate` (lines 1154–1230), with the provider outcome and
the fresh uuids supplied by the caller.  On a thrown exception or a non-ok
result the handler just returns (lines 1190–1197): no node is attached and
`generating` is left set.  On success one child of `state.generating` is
created per completion, marked unread, and `loom:switch-to` is triggered on
the first new id unconditionally (line 1225). -/
def generateRun (s : NoteState) (buf : String) (rootNode : Option String)
    (outcome : GenOutcome) (freshIds : List String) (chatProvider : Bool)
    (now : Nat) : NoteState × String :=
  let s₁ := { s with generating := rootNode }
  let prompt := "<|endoftext|>" ++ fullTextD s₁.nodes rootNode
  let trailingSpace := hasTrailingWs prompt
  match outcome with
  | .threw _ => (s₁, buf)
  | .errResult _ _ => (s₁, buf)
  | .okResult raw =>
    let completions := raw.map (postProcess chatProvider trailingSpace)
    let newNodes := (freshIds.zip completions).map
      (fun p => (p.1, mkNode p.2 s₁.generating true))
    let s₂ := { s₁ with nodes := s₁.nodes ++ newNodes }
    let sb := match freshIds.head? with
      | some id₀ => switchTo s₂ id₀ now
      | none => (s₂, buf)
    ({ sb.1 with generating := none }, sb.2)

def exNodesGen : List (String × Node) :=
  [("r1", mkNode "one" none), ("r2", mkNode "two" none)]

def exStateGen : NoteState :=
  { current := "r2", hoisted := [], searchTerm := "", nodes := exNodesGen, generating := none }

/-- Counterexample to C3 as stated: the pre-call current node `r2` is
neither the generation root `r1` nor a descendant of it (its parent chain
is just `[r2]`), yet after a successful generation for `r1` the active node
has switched to the first new child — the switch at line 1225 is
unconditional. -/
theorem claim_C3_counterexample :
    (generateRun exStateGen "" (some "r1")
        (GenOutcome.okResult [some "foo", some "bar"]) ["n1", "n2"] false 7).1.current
      = "n1" ∧
    exStateGen.current = "r2" ∧
    ("r1" ∉ (chainToRoot exNodesGen (FUEL exNodesGen) "r2").getD []) := by decide

/-- Claim C4 is right and the code is wrong: when the provider call throws
(or resolves to a non-ok result), the handler returns early — no node is
attached and the tree is unchanged, but `state.generating` is left set to
the root instead of being cleared back to null (the success path, line
1227, is the only place that clears it). -/
theorem claim_C4_code_bug :
    ((generateRun exStateGen "" (some "r1") (GenOutcome.threw "boom") [] false 0).1.nodes
      = exStateGen.nodes) ∧
    ((generateRun exStateGen "" (some "r1") (GenOutcome.threw "boom") [] false 0).1.generating
      = some "r1") ∧
    ((generateRun exStateGen "" (some "r1") (GenOutcome.errResult 500 "e") [] false 0).1.nodes
      = exStateGen.nodes) ∧
    ((generateRun exStateGen "" (some "r1") (GenOutcome.errResult 500 "e") [] false 0).1.generating
      = some "r1") := by decide

theorem switchTo_preserves_unread (s : NoteState) (id : String) (now : Nat)
    (x : String) (hx : x ≠ id) :
    ((lookupNode (switchTo s id now).1.nodes x).map Node.unread) =
      ((lookupNode s.nodes x).map Node.unread) := by
  simp only [switchTo, lookupNode_mapVals, Option.map_map]
  cases lookupNode s.nodes x with
  | none => rfl
  | some n =>
    simp only [Option.map_some', Function.comp]
    rw [if_neg hx]
    split <;> rfl

theorem lookup_zip_mkNode {ids vals : List String} (hnd : ids.Nodup) (par : Option String)
    {j : Nat} (hj : j < ids.length) (hjv : j < vals.length) :
    lookupNode ((ids.zip vals).map (fun p => (p.1, mkNode p.2 par true))) (ids.getD j "") =
      some (mkNode (vals.getD j "") par true) := by
  induction ids generalizing vals j with
  | nil => simp at hj
  | cons a ids' ih =>
    cases vals with
    | nil => simp at hjv
    | cons b vals' =>
      cases j with
      | zero =>
        simp [List.zip_cons_cons, lookupNode_cons]
      | succ j =>
        have hnd' : ids'.Nodup := (List.nodup_cons.mp hnd).2
        have hna : a ∉ ids' := (List.nodup_cons.mp hnd).1
        have hjlen : j < ids'.length := by simpa using hj
        have hne : a ≠ ids'.getD j "" := by
          intro h
          apply hna
          rw [h, List.getD_eq_getElem _ _ hjlen]
          exact List.getElem_mem _
        simp only [List.zip_cons_cons, List.map_cons, lookupNode_cons, List.getD_cons_succ]
        rw [if_neg hne]
        exact ih hnd' hjlen (by simpa using hjv)

/-- Claim C3 (amended): a successful generation with `n` completions
creates exactly `n` new nodes, each a child of `rootNode` whose text is the
post-processed completion; all but the first are left unread (the first is
switched to, which marks it read), the `generating` lock is cleared, every
pre-existing node keeps its text and parent — and the active node ALWAYS
switches to the first new child, regardless of where the pre-call `current`
pointed. -/
theorem claim_C3_amended (s : NoteState) (buf : String) (rootNode : Option String)
    (raw : List (Option String)) (id₀ : String) (ids' : List String) (chat : Bool)
    (now : Nat)
    (hlen : (id₀ :: ids').length = raw.length)
    (hndids : (id₀ :: ids').Nodup)
    (hfresh : ∀ i ∈ id₀ :: ids', i ∉ s.nodes.map (·.1)) :
    ((generateRun s buf rootNode (GenOutcome.okResult raw) (id₀ :: ids') chat
        now).1.nodes.length = s.nodes.length + raw.length) ∧
    (∀ j, j < raw.length →
      ((lookupNode (generateRun s buf rootNode (GenOutcome.okResult raw) (id₀ :: ids') chat
          now).1.nodes ((id₀ :: ids').getD j "")).map (fun v => (v.text, v.parentId)))
        = some (postProcess chat
            (hasTrailingWs ("<|endoftext|>" ++ fullTextD s.nodes rootNode))
            (raw.getD j none), rootNode)) ∧
    (∀ j, 0 < j → j < raw.length →
      ((lookupNode (generateRun s buf rootNode (GenOutcome.okResult raw) (id₀ :: ids') chat
          now).1.nodes ((id₀ :: ids').getD j "")).map Node.unread) = some true) ∧
    ((generateRun s buf rootNode (GenOutcome.okResult raw) (id₀ :: ids') chat
        now).1.current = id₀) ∧
    ((generateRun s buf rootNode (GenOutcome.okResult raw) (id₀ :: ids') chat
        now).1.generating = none) ∧
    (∀ x, x ∉ id₀ :: ids' →
      ((lookupNode (generateRun s buf rootNode (GenOutcome.okResult raw) (id₀ :: ids') chat
          now).1.nodes x).map (fun v => (v.text, v.parentId)))
        = ((lookupNode s.nodes x).map (fun v => (v.text, v.parentId)))) := by
  set T := hasTrailingWs ("<|endoftext|>" ++ fullTextD s.nodes rootNode) with hT
  set comps : List String := raw.map (postProcess chat T) with hcomps
  set newNodes : List (String × Node) :=
    ((id₀ :: ids').zip comps).map (fun p => (p.1, mkNode p.2 rootNode true)) with hnew
  set S₂ : NoteState := { s with generating := rootNode, nodes := s.nodes ++ newNodes }
    with hS₂
  have hrun : generateRun s buf rootNode (GenOutcome.okResult raw) (id₀ :: ids') chat now =
      ({ (switchTo S₂ id₀ now).1 with generating := none }, (switchTo S₂ id₀ now).2) := rfl
  have hcomplen : comps.length = raw.length := by rw [hcomps]; simp
  have hlookS₂fresh : ∀ j, j < raw.length →
      lookupNode S₂.nodes ((id₀ :: ids').getD j "") =
        some (mkNode (comps.getD j "") rootNode true) := by
    intro j hj
    have hjids : j < (id₀ :: ids').length := by omega
    have hmemids : (id₀ :: ids').getD j "" ∈ id₀ :: ids' := by
      rw [List.getD_eq_getElem _ _ hjids]
      exact List.getElem_mem _
    have hnotold : lookupNode s.nodes ((id₀ :: ids').getD j "") = none := by
      apply lookupNode_eq_none
      intro p hp he
      exact hfresh _ hmemids (he ▸ List.mem_map_of_mem (fun r : String × Node => r.1) hp)
    rw [hS₂]
    show lookupNode (s.nodes ++ newNodes) _ = _
    rw [lookupNode_append, hnotold, option_none_or, hnew]
    exact lookup_zip_mkNode hndids rootNode hjids (by omega)
  refine ⟨?_, ?_, ?_, ?_, ?_, ?_⟩
  · rw [hrun]
    show (switchTo S₂ id₀ now).1.nodes.length = _
    rw [switchTo_nodes_length]
    rw [hS₂]
    show (s.nodes ++ newNodes).length = _
    rw [List.length_append, hnew]
    simp only [List.length_map, List.length_zip, hcomplen, ← hlen]
    simp [Nat.min_self]
  · intro j hj
    rw [hrun]
    show ((lookupNode (switchTo S₂ id₀ now).1.nodes _).map _) = _
    rw [switchTo_preserves_text_parent, hlookS₂fresh j hj]
    have hcget : comps.getD j "" = postProcess chat T (raw.getD j none) := by
      rw [hcomps, List.getD_eq_getElem _ _ (by simpa [hcomps] using (hcomplen ▸ hj)),
        List.getElem_map, ← List.getD_eq_getElem _ _ hj]
    rw [hcget]
    simp [mkNode]
  · intro j hjpos hj
    rw [hrun]
    have hjids : j < (id₀ :: ids').length := by omega
    have hne : (id₀ :: ids').getD j "" ≠ id₀ := by
      obtain ⟨j', rfl⟩ : ∃ j', j = j' + 1 := ⟨j - 1, by omega⟩
      have hj'len : j' < ids'.length := by simpa using hjids
      rw [List.getD_cons_succ]
      intro h
      apply (List.nodup_cons.mp hndids).1
      rw [← h, List.getD_eq_getElem _ _ hj'len]
      exact List.getElem_mem _
    show ((lookupNode (switchTo S₂ id₀ now).1.nodes _).map Node.unread) = _
    rw [switchTo_preserves_unread _ _ _ _ hne, hlookS₂fresh j hj]
    rfl
  · rw [hrun]
    rfl
  · rw [hrun]
  · intro x hx
    rw [hrun]
    show ((lookupNode (switchTo S₂ id₀ now).1.nodes x).map _) = _
    rw [switchTo_preserves_text_parent]
    rw [hS₂]
    show ((lookupNode (s.nodes ++ newNodes) x).map _) = _
    rw [lookupNode_append]
    have hnewnone : lookupNode newNodes x = none := by
      apply lookupNode_eq_none
      intro p hp he
      rw [hnew] at hp
      obtain ⟨q, hq, rfl⟩ := List.mem_map.mp hp
      exact hx (he ▸ (List.of_mem_zip hq).1)
    rw [hnewnone]
    cases lookupNode s.nodes x <;> rfl

/-- Witness for the amended C3: two completions for root `r1` while the
user is on the unrelated root `r2`. -/
theorem claim_C3_amended_witness :
    ((generateRun exStateGen "" (some "r1") (GenOutcome.okResult [some "foo", some "bar"])
        ["n1", "n2"] false 7).1.nodes.length = exNodesGen.length + 2) ∧
    (∀ j, j < 2 →
      ((lookupNode (generateRun exStateGen "" (some "r1")
          (GenOutcome.okResult [some "foo", some "bar"]) ["n1", "n2"] false
          7).1.nodes (["n1", "n2"].getD j "")).map (fun v => (v.text, v.parentId)))
        = some (postProcess false
            (hasTrailingWs ("<|endoftext|>" ++ fullTextD exNodesGen (some "r1")))
            ([some "foo", some "bar"].getD j none), some "r1")) ∧
    (∀ j, 0 < j → j < 2 →
      ((lookupNode (generateRun exStateGen "" (some "r1")
          (GenOutcome.okResult [some "foo", some "bar"]) ["n1", "n2"] false
          7).1.nodes (["n1", "n2"].getD j "")).map Node.unread) = some true) ∧
    ((generateRun exStateGen "" (some "r1") (GenOutcome.okResult [some "foo", some "bar"])
        ["n1", "n2"] false 7).1.current = "n1") ∧
    ((generateRun exStateGen "" (some "r1") (GenOutcome.okResult [some "foo", some "bar"])
        ["n1", "n2"] false 7).1.generating = none) ∧
    (∀ x, x ∉ ["n1", "n2"] →
      ((lookupNode (generateRun exStateGen "" (some "r1")
          (GenOutcome.okResult [some "foo", some "bar"]) ["n1", "n2"] false
          7).1.nodes x).map (fun v => (v.text, v.parentId)))
        = ((lookupNode exNodesGen x).map (fun v => (v.text, v.parentId)))) :=
  claim_C3_amended exStateGen "" (some "r1") [some "foo", some "bar"] "n1" ["n2"] false 7
    (by decide) (by decide) (by decide)

end Loom
